import Mathlib

/-!
Verification of the stipple raster/vector pipeline of the
`klayout-vector-file-export` plugin.

The Python sources under `pymacros/` are shallowly embedded here:

* `pymacros/bitmap.py`     → `Bitmap`, `panelize`, the KLayout pattern-text
  codec (`from_klayout_string` / `to_klayout_string`), the PBM codec
  (`from_pbm` / `to_pbm`) and the compact-filename codec
  (`from_compact_filename` / `to_compact_filename`).
* `pymacros/svg_painter.py` → the path tokenizer / command loop and the
  transform machinery (`parse_svg_transform`, `walkNode`).
* `pymacros/stipple_vector_cache.py` → `painter_paths_for_stipple`.

Python `bytearray` values are modelled as `List Nat`, Python `str` as
`List Char`, Python `float` as `ℚ` (exact on every value the theorems touch),
and fallible code returns `Except`.  Loops that are not structurally
recursive are run on explicit fuel so that every definition evaluates inside
the kernel.
-/

namespace VFE

/-- Decidable equality for `Except`, so that concrete runs of the fallible
codecs can be checked with `decide`. -/
instance {ε α : Type} [DecidableEq ε] [DecidableEq α] : DecidableEq (Except ε α) := fun x y =>
  match x, y with
  | .ok a, .ok b =>
    if h : a = b then .isTrue (congrArg Except.ok h)
    else .isFalse (fun hh => h (Except.ok.inj hh))
  | .error a, .error b =>
    if h : a = b then .isTrue (congrArg Except.error h)
    else .isFalse (fun hh => h (Except.error.inj hh))
  | .ok _, .error _ => .isFalse (fun hh => Except.noConfusion hh)
  | .error _, .ok _ => .isFalse (fun hh => Except.noConfusion hh)

/-- In-memory raster. Mirrors `Bitmap` of `bitmap.py`: flat, row-major data,
one entry per pixel (0 or 1 in well-formed rasters). -/
structure Bitmap where
  width : Nat
  height : Nat
  data : List Nat
deriving Repr, DecidableEq

/-- Characters at which Python `str.splitlines` breaks a line
(ASCII separators plus NEL, LS, PS). -/
def isLineSep (c : Char) : Bool :=
  c = '\n' ∨ c = '\x0d' ∨ c = '\x0b' ∨ c = '\x0c' ∨ c = '\x1c' ∨ c = '\x1d' ∨
  c = '\x1e' ∨ c = '\x85' ∨ c = ' ' ∨ c = ' '

/-- Characters removed by Python `str.strip` (the `str.isspace` class). -/
def isPySpace (c : Char) : Bool :=
  isLineSep c ∨ c = ' ' ∨ c = '\t' ∨ c = '\x1f' ∨ c = '\xa0' ∨ c = ' ' ∨
  (' ' ≤ c ∧ c ≤ ' ') ∨ c = ' ' ∨ c = ' ' ∨ c = '　'

/-- Fuelled worker for `pysplitlines`; the fuel only has to dominate the
length of the string, see `pysplitlines`. -/
def pysplitlinesGo : Nat → List Char → List (List Char)
  | 0, _ => []
  | fuel + 1, s =>
    if s = [] then []
    else
      let line := s.takeWhile (fun c => !(isLineSep c))
      match s.dropWhile (fun c => !(isLineSep c)) with
      | [] => [line]
      | c :: rest =>
        if c = '\x0d' then
          match rest with
          | '\n' :: rest2 => line :: pysplitlinesGo fuel rest2
          | _ => line :: pysplitlinesGo fuel rest
        else line :: pysplitlinesGo fuel rest

/-- Python `str.splitlines`: split at line separators, `\x0d\n` counting as a
single separator, with no empty trailing line. -/
def pysplitlines (s : List Char) : List (List Char) :=
  pysplitlinesGo (s.length + 1) s

/-- Python `str.strip`: drop whitespace from both ends. -/
def pystrip (s : List Char) : List Char :=
  ((s.dropWhile isPySpace).reverse.dropWhile isPySpace).reverse

/-- Structured contents of the `ValueError` messages raised by
`Bitmap.from_klayout_string`: the first carries the offending line index and
both lengths, the second the offending character and its line index. -/
inductive KFormatError where
  | inconsistentLineLength (line got expected : Nat)
  | invalidCharacter (c : Char) (line : Nat)
deriving Repr, DecidableEq

/-- The retained lines of a pattern string: split into lines, strip each, and
keep the non-blank ones (`bitmap.py`, `from_klayout_string` list
comprehension). -/
def retainedLines (s : List Char) : List (List Char) :=
  ((pysplitlines s).map pystrip).filter (fun l => l ≠ [])

/-- Inner character loop of `from_klayout_string` for the line with index
`y`: `*` becomes 1, `.` becomes 0, anything else raises. -/
def decodeRow (y : Nat) : List Char → Except KFormatError (List Nat)
  | [] => .ok []
  | c :: rest =>
    if c = '*' then
      match decodeRow y rest with
      | .ok row => .ok (1 :: row)
      | .error e => .error e
    else if c = '.' then
      match decodeRow y rest with
      | .ok row => .ok (0 :: row)
      | .error e => .error e
    else .error (.invalidCharacter c y)

/-- Outer line loop of `from_klayout_string`: for each line first the length
check, then the characters, accumulating the row-major data. -/
def decodeLines (width : Nat) : Nat → List (List Char) → Except KFormatError (List Nat)
  | _, [] => .ok []
  | y, line :: rest =>
    if line.length ≠ width then .error (.inconsistentLineLength y line.length width)
    else
      match decodeRow y line with
      | .error e => .error e
      | .ok row =>
        match decodeLines width (y + 1) rest with
        | .error e => .error e
        | .ok rows => .ok (row ++ rows)

/-- `Bitmap.from_klayout_string`: decode KLayout pattern text. -/
def from_klayout_string (s : List Char) : Except KFormatError Bitmap :=
  match retainedLines s with
  | [] => .ok ⟨0, 0, []⟩
  | first :: _ =>
    match decodeLines first.length 0 (retainedLines s) with
    | .error e => .error e
    | .ok data => .ok ⟨first.length, (retainedLines s).length, data⟩

/-- Pixel rendering of `to_klayout_string`: set pixels print as `*`, clear
ones as `.`. -/
def bitChar (e : Nat) : Char := if e ≠ 0 then '*' else '.'

/-- One output line of `to_klayout_string`. -/
def rowString (b : Bitmap) (y : Nat) : List Char :=
  (List.range b.width).map (fun x => bitChar (b.data.getD (y * b.width + x) 0))

/-- `Bitmap.to_klayout_string`: one line per row joined by newlines; empty
rasters encode to the empty string. -/
def to_klayout_string (b : Bitmap) : List Char :=
  if b.width = 0 ∨ b.height = 0 then []
  else List.intercalate ['\n'] ((List.range b.height).map (rowString b))

/-- Ceiling division on naturals. `bitmap.py` computes `ceil(min_w/tile_w)`
over Python FLOATS; this model is the exact integer ceiling instead. The two
agree on ordinary sizes but not universally: float division rounds the
quotient to 53 bits of precision, so e.g. `ceil((10^16+1)/1)` is `10^16` in
the program (the odd integer ties to the even double `10^16`) while this
model gives `10^16+1`, and for `min_w` beyond the double range the program
raises `OverflowError` where this model still returns a value. The C2 record
reports that divergence as a code bug; the theorems below prove the exact
law the spec states and the code approximates. -/
def pyceilDiv (a b : Nat) : Nat := (a + b - 1) / b

/-- `Bitmap.panelize`: tile the raster until it covers at least
`min_w × min_h`. The double write loop of the source fills index
`y * panel_w + x` with `tile_data[(y % tile_h) * tile_w + (x % tile_w)]` in
row-major order, which is the flattening below. `nx`/`ny` use the exact
ceiling `pyceilDiv` where the source uses a float-based ceil: see the
caveat on `pyceilDiv` — for min sizes at or above `2^53` the program's
dimensions depart from this model (and beyond the double range the program
raises `OverflowError`), which the C2 record reports as a code bug. -/
def panelize (b : Bitmap) (min_w min_h : Nat) : Bitmap :=
  if b.width = 0 ∨ b.height = 0 then ⟨0, 0, []⟩
  else
    let tile_w := b.width
    let tile_h := b.height
    let nx := pyceilDiv min_w tile_w
    let ny := pyceilDiv min_h tile_h
    let panel_w := nx * tile_w
    let panel_h := ny * tile_h
    let panel_data := ((List.range panel_h).map (fun y =>
      (List.range panel_w).map (fun x =>
        b.data.getD ((y % tile_h) * tile_w + (x % tile_w)) 0))).flatten
    ⟨panel_w, panel_h, panel_data⟩

/-- `Bitmap.get`: read pixel `(x, y)`. In-range accesses agree with the
Python accessor; the Lean model totalises the out-of-range case with 0. -/
def Bitmap.get (b : Bitmap) (x y : Nat) : Nat := b.data.getD (y * b.width + x) 0

/-- `Bitmap.set`: write pixel `(x, y)` with 1 for truthy values and 0
otherwise. `List.set` leaves the list unchanged out of range, where Python
raises; either way the length is untouched. -/
def Bitmap.set (b : Bitmap) (x y v : Nat) : Bitmap :=
  { b with data := b.data.set (y * b.width + x) (if v ≠ 0 then 1 else 0) }

/-! Helper lemmas about lists. -/

theorem foldl_ext {α β : Type} (f g : β → α → β) (h : ∀ a b, f a b = g a b) :
    ∀ (l : List α) (init : β), l.foldl f init = l.foldl g init := by
  intro l
  induction l with
  | nil => intro init; rfl
  | cons x l ih =>
    intro init
    simp only [List.foldl_cons, h]
    exact ih _

theorem getD_map_range {α : Type} (n : Nat) (f : Nat → α) (i : Nat) (d : α)
    (h : i < n) : ((List.range n).map f).getD i d = f i := by
  rw [List.getD_eq_getElem?_getD, List.getElem?_map, List.getElem?_range h]
  rfl

theorem flatten_rows_getD (rows : List (List Nat)) (w : Nat)
    (hw : ∀ r ∈ rows, r.length = w) :
    ∀ y x : Nat, y < rows.length → x < w →
      rows.flatten.getD (y * w + x) 0 = (rows.getD y []).getD x 0 := by
  induction rows with
  | nil => intro y x hy _; exact absurd hy (by simp)
  | cons r rest ih =>
    intro y x hy hx
    have hr : r.length = w := hw r (by simp)
    cases y with
    | zero =>
      simp only [List.flatten_cons, Nat.zero_mul, Nat.zero_add, List.getD_cons_zero]
      rw [List.getD_append _ _ _ _ (by omega)]
    | succ y =>
      simp only [List.flatten_cons, List.getD_cons_succ]
      have hsm : (y + 1) * w + x = r.length + (y * w + x) := by rw [hr]; ring
      rw [hsm, List.getD_append_right _ _ _ _ (Nat.le_add_right _ _),
        Nat.add_sub_cancel_left]
      exact ih (fun r hrr => hw r (List.mem_cons_of_mem _ hrr)) y x
        (by simpa using hy) hx

theorem flatten_rows_length (rows : List (List Nat)) (w : Nat)
    (hw : ∀ r ∈ rows, r.length = w) :
    rows.flatten.length = rows.length * w := by
  induction rows with
  | nil => simp
  | cons r rest ih =>
    have hr : r.length = w := hw r (by simp)
    have := ih (fun r hrr => hw r (List.mem_cons_of_mem _ hrr))
    simp only [List.flatten_cons, List.length_append, this, hr, List.length_cons]
    ring

/-! Panelization: claim C2. -/

theorem panelize_of_pos (b : Bitmap) (min_w min_h : Nat)
    (hw : b.width ≠ 0) (hh : b.height ≠ 0) :
    panelize b min_w min_h =
      ⟨pyceilDiv min_w b.width * b.width, pyceilDiv min_h b.height * b.height,
       ((List.range (pyceilDiv min_h b.height * b.height)).map (fun y =>
         (List.range (pyceilDiv min_w b.width * b.width)).map (fun x =>
           b.data.getD ((y % b.height) * b.width + (x % b.width)) 0))).flatten⟩ := by
  have h0 : ¬ (b.width = 0 ∨ b.height = 0) := by tauto
  simp only [panelize]
  rw [if_neg h0]

/-- Claim C2 (panelization law), proved of the exact-integer-arithmetic
idealization of the source: for a non-degenerate tile the panel has
dimensions `ceil(min/tile) * tile` per axis and every in-range pixel repeats
the tile periodically; a degenerate tile panelizes to the 0×0 raster; and the
3×3 diagonal tile panelized to minimum 7×7 is the 9×9 three-by-three
repetition. The PROGRAM violates this law: it takes the ceiling over Python
floats, so at `min_w = 10^16+1, tile_w = 1` it produces width `10^16` where
the law requires `10^16+1`, and above the double range it raises
`OverflowError` — recorded under C2 as a code bug, with this theorem showing
the law holds in exact arithmetic. -/
theorem C2_panelization_law (tile : Bitmap) (min_w min_h : Nat) :
    (tile.width ≠ 0 → tile.height ≠ 0 →
      (panelize tile min_w min_h).width = pyceilDiv min_w tile.width * tile.width ∧
      (panelize tile min_w min_h).height = pyceilDiv min_h tile.height * tile.height ∧
      ∀ x y : Nat, x < (panelize tile min_w min_h).width →
        y < (panelize tile min_w min_h).height →
        (panelize tile min_w min_h).get x y =
          tile.get (x % tile.width) (y % tile.height)) ∧
    ((tile.width = 0 ∨ tile.height = 0) → panelize tile min_w min_h = ⟨0, 0, []⟩) ∧
    (from_klayout_string ( "*..\n.*.\n..*".toList )).map
        (fun b => to_klayout_string (panelize b 7 7)) =
      .ok (("*..*..*..\n.*..*..*.\n..*..*..*\n*..*..*..\n.*..*..*.\n..*..*..*" ++
            "\n*..*..*..\n.*..*..*.\n..*..*..*").toList) := by
  refine ⟨fun hw hh => ?_, fun hdeg => by simp only [panelize, if_pos hdeg], by decide⟩
  rw [panelize_of_pos tile min_w min_h hw hh]
  refine ⟨rfl, rfl, ?_⟩
  intro x y hx hy
  simp only [Bitmap.get]
  set pw := pyceilDiv min_w tile.width * tile.width with hpw
  set ph := pyceilDiv min_h tile.height * tile.height with hph
  have hx' : x < pw := hx
  have hy' : y < ph := hy
  have hlens : ∀ r ∈ (List.range ph).map (fun y =>
      (List.range pw).map (fun x =>
        tile.data.getD ((y % tile.height) * tile.width + (x % tile.width)) 0)), r.length = pw := by
    intro r hr
    simp only [List.mem_map] at hr
    obtain ⟨yy, _, rfl⟩ := hr
    simp
  rw [flatten_rows_getD _ pw hlens y x (by simpa using hy') hx']
  rw [getD_map_range ph _ y [] hy']
  rw [getD_map_range pw _ x 0 hx']

/-- Witness for C2 at the concrete 3×3 diagonal tile and minimum 7×7. -/
theorem C2_panelization_law_witness :
    (panelize ⟨3, 3, [1,0,0,0,1,0,0,0,1]⟩ 7 7).width = pyceilDiv 7 3 * 3 ∧
    (panelize ⟨3, 3, [1,0,0,0,1,0,0,0,1]⟩ 7 7).get 4 5 =
      Bitmap.get ⟨3, 3, [1,0,0,0,1,0,0,0,1]⟩ (4 % 3) (5 % 3) ∧
    panelize ⟨3, 0, []⟩ 7 7 = ⟨0, 0, []⟩ := by
  refine ⟨((C2_panelization_law ⟨3, 3, [1,0,0,0,1,0,0,0,1]⟩ 7 7).1
      (by decide) (by decide)).1, ?_, ?_⟩
  · exact ((C2_panelization_law ⟨3, 3, [1,0,0,0,1,0,0,0,1]⟩ 7 7).1
      (by decide) (by decide)).2.2 4 5 (by decide) (by decide)
  · exact (C2_panelization_law ⟨3, 0, []⟩ 7 7).2.1 (by decide)

/-! Characterization of the pattern-text decoder. -/

/-- Value of a pattern character on success: `*` is 1, `.` is 0. -/
def enc01 (c : Char) : Nat := if c = '*' then 1 else 0

/-- A line consisting solely of the two marker symbols. -/
def validLine (l : List Char) : Prop := ∀ c ∈ l, c = '*' ∨ c = '.'

instance (l : List Char) : Decidable (validLine l) := by
  unfold validLine
  infer_instance

theorem decodeRow_ok_of_valid (y : Nat) (line : List Char) (h : validLine line) :
    decodeRow y line = .ok (line.map enc01) := by
  induction line with
  | nil => rfl
  | cons c rest ih =>
    have hc := h c (by simp)
    have hrest : validLine rest := fun a ha => h a (List.mem_cons_of_mem _ ha)
    rcases hc with hc | hc
    · simp [decodeRow, hc, ih hrest, enc01]
    · subst hc
      simp only [decodeRow, if_neg (by decide : ¬ ('.' : Char) = '*'), if_pos rfl,
        ih hrest, List.map_cons]
      rfl

theorem decodeRow_ok_inv (y : Nat) (line : List Char) (row : List Nat)
    (h : decodeRow y line = .ok row) : row = line.map enc01 ∧ validLine line := by
  induction line generalizing row with
  | nil =>
    simp only [decodeRow] at h
    cases h
    exact ⟨rfl, fun c hc => absurd hc (by simp)⟩
  | cons c rest ih =>
    simp only [decodeRow] at h
    by_cases hstar : c = '*'
    · rw [if_pos hstar] at h
      cases hrest : decodeRow y rest with
      | error e => rw [hrest] at h; cases h
      | ok r =>
        rw [hrest] at h
        cases h
        obtain ⟨hr, hv⟩ := ih r hrest
        subst hr
        refine ⟨by simp [enc01, hstar], ?_⟩
        intro a ha
        rcases List.mem_cons.mp ha with rfl | ha
        · exact Or.inl hstar
        · exact hv a ha
    · rw [if_neg hstar] at h
      by_cases hdot : c = '.'
      · rw [if_pos hdot] at h
        cases hrest : decodeRow y rest with
        | error e => rw [hrest] at h; cases h
        | ok r =>
          rw [hrest] at h
          cases h
          obtain ⟨hr, hv⟩ := ih r hrest
          subst hr
          refine ⟨by simp [enc01, hstar, hdot], ?_⟩
          intro a ha
          rcases List.mem_cons.mp ha with rfl | ha
          · exact Or.inr hdot
          · exact hv a ha
      · rw [if_neg hdot] at h
        cases h

theorem decodeRow_first_bad (y : Nat) (pre : List Char) (c : Char) (suf : List Char)
    (hpre : validLine pre) (hc : ¬ (c = '*' ∨ c = '.')) :
    decodeRow y (pre ++ c :: suf) = .error (.invalidCharacter c y) := by
  induction pre with
  | nil =>
    push_neg at hc
    simp [decodeRow, hc.1, hc.2]
  | cons a pre ih =>
    have ha := hpre a (by simp)
    have hpre' : validLine pre := fun x hx => hpre x (List.mem_cons_of_mem _ hx)
    have hrec := ih hpre'
    rcases ha with ha | ha
    · simp [decodeRow, ha, hrec]
    · subst ha
      simp [decodeRow, hrec]

theorem decodeLines_ok_inv (w : Nat) : ∀ (ls : List (List Char)) (y : Nat) (data : List Nat),
    decodeLines w y ls = .ok data →
    data = (ls.map (fun l => l.map enc01)).flatten ∧ ∀ l ∈ ls, l.length = w ∧ validLine l := by
  intro ls
  induction ls with
  | nil =>
    intro y data h
    simp only [decodeLines] at h
    cases h
    exact ⟨by simp, by simp⟩
  | cons line rest ih =>
    intro y data h
    simp only [decodeLines] at h
    by_cases hlen : line.length ≠ w
    · rw [if_pos hlen] at h; cases h
    · rw [if_neg hlen] at h
      push_neg at hlen
      cases hrow : decodeRow y line with
      | error e => rw [hrow] at h; cases h
      | ok row =>
        rw [hrow] at h
        cases hrest : decodeLines w (y + 1) rest with
        | error e => rw [hrest] at h; cases h
        | ok rows =>
          rw [hrest] at h
          cases h
          obtain ⟨hr, hv⟩ := decodeRow_ok_inv y line row hrow
          obtain ⟨hrs, hls⟩ := ih (y + 1) rows hrest
          subst hr; subst hrs
          refine ⟨by simp, ?_⟩
          intro l hl
          rcases List.mem_cons.mp hl with rfl | hl
          · exact ⟨hlen, hv⟩
          · exact hls l hl

theorem decodeLines_ok_of_valid (w : Nat) :
    ∀ (ls : List (List Char)) (y : Nat), (∀ l ∈ ls, l.length = w ∧ validLine l) →
    decodeLines w y ls = .ok ((ls.map (fun l => l.map enc01)).flatten) := by
  intro ls
  induction ls with
  | nil => intro y _; rfl
  | cons line rest ih =>
    intro y hall
    obtain ⟨hlen, hv⟩ := hall line (by simp)
    have hrest := ih (y + 1) (fun l hl => hall l (List.mem_cons_of_mem _ hl))
    simp only [decodeLines, if_neg (by omega : ¬ line.length ≠ w),
      decodeRow_ok_of_valid y line hv, hrest, List.map_cons, List.flatten_cons]

theorem decodeLines_first_len_err (w : Nat) :
    ∀ (pre : List (List Char)) (l : List Char) (suf : List (List Char)) (y : Nat),
    (∀ q ∈ pre, q.length = w ∧ validLine q) → l.length ≠ w →
    decodeLines w y (pre ++ l :: suf) =
      .error (.inconsistentLineLength (y + pre.length) l.length w) := by
  intro pre
  induction pre with
  | nil =>
    intro l suf y _ hbad
    simp [decodeLines, hbad]
  | cons q pre ih =>
    intro l suf y hpre hbad
    obtain ⟨hlen, hv⟩ := hpre q (by simp)
    have hrec := ih l suf (y + 1) (fun r hr => hpre r (List.mem_cons_of_mem _ hr)) hbad
    have harith : y + 1 + pre.length = y + (pre.length + 1) := by omega
    rw [harith] at hrec
    simp [decodeLines, if_neg (by omega : ¬ q.length ≠ w),
      decodeRow_ok_of_valid y q hv, hrec]

theorem decodeLines_first_char_err (w : Nat) :
    ∀ (pre : List (List Char)) (cpre : List Char) (c : Char) (csuf : List Char)
      (suf : List (List Char)) (y : Nat),
    (∀ q ∈ pre, q.length = w ∧ validLine q) →
    (cpre ++ c :: csuf).length = w → validLine cpre → ¬ (c = '*' ∨ c = '.') →
    decodeLines w y (pre ++ (cpre ++ c :: csuf) :: suf) =
      .error (.invalidCharacter c (y + pre.length)) := by
  intro pre
  induction pre with
  | nil =>
    intro cpre c csuf suf y _ hlen hcpre hc
    simp [decodeLines, hlen, decodeRow_first_bad y cpre c csuf hcpre hc]
  | cons q pre ih =>
    intro cpre c csuf suf y hpre hlen hcpre hc
    obtain ⟨hql, hqv⟩ := hpre q (by simp)
    have hrec := ih cpre c csuf suf (y + 1)
      (fun r hr => hpre r (List.mem_cons_of_mem _ hr)) hlen hcpre hc
    have harith : y + 1 + pre.length = y + (pre.length + 1) := by omega
    rw [harith] at hrec
    simp [decodeLines, if_neg (by omega : ¬ q.length ≠ w),
      decodeRow_ok_of_valid y q hqv, hrec]

theorem from_klayout_string_shape (s : List Char) (b : Bitmap)
    (h : from_klayout_string s = .ok b) :
    (b = ⟨0, 0, []⟩ ∧ retainedLines s = []) ∨
    (∃ first rest data, retainedLines s = first :: rest ∧
      decodeLines first.length 0 (first :: rest) = .ok data ∧
      b = ⟨first.length, (first :: rest).length, data⟩) := by
  cases hL : retainedLines s with
  | nil =>
    left
    simp only [from_klayout_string, hL] at h
    cases h
    exact ⟨rfl, rfl⟩
  | cons first rest =>
    right
    simp only [from_klayout_string, hL] at h
    cases hD : decodeLines first.length 0 (first :: rest) with
    | error e => rw [hD] at h; cases h
    | ok data =>
      rw [hD] at h
      cases h
      exact ⟨first, rest, data, rfl, hD, rfl⟩

theorem mem_retainedLines_ne_nil (s : List Char) (l : List Char)
    (h : l ∈ retainedLines s) : l ≠ [] := by
  have := List.mem_filter.mp h
  simpa using this.2

/-- Data-model invariant facts derivable from a successful pattern decode. -/
theorem from_klayout_string_props (s : List Char) (b : Bitmap)
    (h : from_klayout_string s = .ok b) :
    b.data.length = b.width * b.height ∧ (∀ e ∈ b.data, e ≤ 1) ∧
    ((b.width = 0 ∨ b.height = 0) → b = ⟨0, 0, []⟩) := by
  rcases from_klayout_string_shape s b h with ⟨rfl, _⟩ | ⟨first, rest, data, hL, hD, rfl⟩
  · exact ⟨rfl, by simp, fun _ => rfl⟩
  · obtain ⟨hdata, hls⟩ := decodeLines_ok_inv first.length _ 0 data hD
    have hlens : ∀ r ∈ (first :: rest).map (fun l => l.map enc01), r.length = first.length := by
      intro r hr
      simp only [List.mem_map] at hr
      obtain ⟨l, hl, rfl⟩ := hr
      simp [(hls l hl).1]
    constructor
    · subst hdata
      rw [flatten_rows_length _ first.length hlens]
      simp [Nat.mul_comm]
    constructor
    · subst hdata
      intro e he
      rw [List.mem_flatten] at he
      obtain ⟨r, hr, he⟩ := he
      simp only [List.mem_map] at hr
      obtain ⟨l, _, rfl⟩ := hr
      simp only [List.mem_map] at he
      obtain ⟨c, _, rfl⟩ := he
      simp only [enc01]
      split <;> omega
    · intro hdeg
      exfalso
      have h1 : first ≠ [] := mem_retainedLines_ne_nil s first (hL ▸ List.mem_cons_self _ _)
      rcases hdeg with hw | hh
      · exact h1 (List.eq_nil_of_length_eq_zero hw)
      · simp at hh

/-! Behaviour of `pysplitlines`, `pystrip` and the retained-line filter on
encoder output. -/

theorem takeWhile_append_stop {α : Type} (p : α → Bool) (r : List α) (c : α) (t : List α)
    (hr : ∀ a ∈ r, p a = true) (hc : p c = false) :
    (r ++ c :: t).takeWhile p = r ∧ (r ++ c :: t).dropWhile p = c :: t := by
  induction r with
  | nil => simp [List.takeWhile, List.dropWhile, hc]
  | cons a r ih =>
    have ha := hr a (by simp)
    have := ih (fun x hx => hr x (List.mem_cons_of_mem _ hx))
    simp [List.takeWhile, List.dropWhile, ha, this.1, this.2]

theorem takeWhile_all_true {α : Type} (p : α → Bool) (l : List α)
    (h : ∀ a ∈ l, p a = true) : l.takeWhile p = l ∧ l.dropWhile p = [] := by
  induction l with
  | nil => simp
  | cons a l ih =>
    have ha := h a (by simp)
    have := ih (fun x hx => h x (List.mem_cons_of_mem _ hx))
    simp [List.takeWhile, List.dropWhile, ha, this.1, this.2]

theorem dropWhile_all_neg {α : Type} (p : α → Bool) (l : List α)
    (h : ∀ a ∈ l, p a = false) : l.dropWhile p = l := by
  cases l with
  | nil => rfl
  | cons a l => simp [List.dropWhile, h a (by simp)]

theorem pystrip_eq_self (l : List Char) (h : ∀ c ∈ l, isPySpace c = false) :
    pystrip l = l := by
  unfold pystrip
  rw [dropWhile_all_neg _ _ h, dropWhile_all_neg _ _ (by
    intro c hc
    exact h c (List.mem_reverse.mp hc)), List.reverse_reverse]

theorem intercalate_cons_cons {α : Type} (s : List α) (a b : List α) (t : List (List α)) :
    List.intercalate s (a :: b :: t) = a ++ s ++ List.intercalate s (b :: t) := by
  simp [List.intercalate, List.intersperse]

theorem intercalate_single {α : Type} (s : List α) (a : List α) :
    List.intercalate s [a] = a := by
  simp [List.intercalate, List.intersperse]

theorem pysplitlinesGo_intercalate :
    ∀ (rows : List (List Char)) (fuel : Nat), rows ≠ [] →
    (∀ r ∈ rows, r ≠ [] ∧ ∀ c ∈ r, isLineSep c = false) →
    (List.intercalate ['\n'] rows).length < fuel →
    pysplitlinesGo fuel (List.intercalate ['\n'] rows) = rows := by
  intro rows
  induction rows with
  | nil => intro fuel h _ _; exact absurd rfl h
  | cons r rest ih =>
    intro fuel _ hrows hfuel
    obtain ⟨hrne, hrsep⟩ := hrows r (by simp)
    have hp : ∀ a ∈ r, (!(isLineSep a)) = true := by
      intro a ha; simp [hrsep a ha]
    cases rest with
    | nil =>
      rw [intercalate_single] at hfuel ⊢
      cases fuel with
      | zero => omega
      | succ fuel =>
        have := takeWhile_all_true (fun c => !(isLineSep c)) r hp
        simp only [pysplitlinesGo, if_neg hrne, this.1, this.2]
    | cons r2 t =>
      rw [intercalate_cons_cons] at hfuel ⊢
      have hshape : r ++ ['\n'] ++ List.intercalate ['\n'] (r2 :: t) =
          r ++ '\n' :: List.intercalate ['\n'] (r2 :: t) := by simp
      rw [hshape] at hfuel ⊢
      cases fuel with
      | zero => omega
      | succ fuel =>
        have hsplit := takeWhile_append_stop (fun c => !(isLineSep c)) r '\n'
          (List.intercalate ['\n'] (r2 :: t)) hp (by decide)
        have hne : r ++ '\n' :: List.intercalate ['\n'] (r2 :: t) ≠ [] := by simp
        simp only [pysplitlinesGo, if_neg hne, hsplit.1, hsplit.2]
        rw [if_neg (by decide : ¬ ('\n' : Char) = '\x0d')]
        have hrest := ih fuel (by simp)
          (fun q hq => hrows q (List.mem_cons_of_mem _ hq)) (by
            simp only [List.length_append, List.length_cons] at hfuel
            omega)
        rw [hrest]

theorem isLineSep_bitChar (e : Nat) : isLineSep (bitChar e) = false := by
  unfold bitChar; split <;> decide

theorem isPySpace_bitChar (e : Nat) : isPySpace (bitChar e) = false := by
  unfold bitChar; split <;> decide

theorem retainedLines_encode (b : Bitmap) (hw : b.width ≠ 0) (hh : b.height ≠ 0) :
    retainedLines (to_klayout_string b) = (List.range b.height).map (rowString b) := by
  have henc : to_klayout_string b =
      List.intercalate ['\n'] ((List.range b.height).map (rowString b)) := by
    unfold to_klayout_string
    rw [if_neg (by tauto)]
  set rows := (List.range b.height).map (rowString b) with hrows
  have hrowsfacts : ∀ r ∈ rows, r ≠ [] ∧ ∀ c ∈ r, isLineSep c = false := by
    intro r hr
    rw [hrows] at hr
    simp only [List.mem_map, List.mem_range] at hr
    obtain ⟨y, _, rfl⟩ := hr
    constructor
    · have : (rowString b y).length = b.width := by simp [rowString]
      intro hnil
      rw [hnil] at this
      simp at this
      omega
    · intro c hc
      simp only [rowString, List.mem_map] at hc
      obtain ⟨x, _, rfl⟩ := hc
      exact isLineSep_bitChar _
  have hrowsne : rows ≠ [] := by
    rw [hrows]
    simp only [ne_eq, List.map_eq_nil_iff, List.range_eq_nil]
    omega
  have hsplit : pysplitlines (to_klayout_string b) = rows := by
    rw [henc]
    exact pysplitlinesGo_intercalate rows _ hrowsne hrowsfacts (by omega)
  unfold retainedLines
  rw [hsplit]
  have hstrip : rows.map pystrip = rows := by
    have hid : rows.map pystrip = rows.map id := by
      apply List.map_congr_left
      intro r hr
      simp only [id]
      apply pystrip_eq_self
      intro c hc
      simp only [hrows, List.mem_map] at hr
      obtain ⟨y, _, rfl⟩ := hr
      simp only [rowString, List.mem_map] at hc
      obtain ⟨x, _, rfl⟩ := hc
      exact isPySpace_bitChar _
    rw [hid, List.map_id]
  rw [hstrip]
  apply List.filter_eq_self.mpr
  intro r hr
  simp only [ne_eq, decide_eq_true_eq]
  exact (hrowsfacts r hr).1

/-- Normalisation applied by an encode-decode cycle to a pixel value. -/
theorem enc01_bitChar (e : Nat) : enc01 (bitChar e) = if e ≠ 0 then 1 else 0 := by
  unfold enc01 bitChar
  split <;> simp

/-- Encoding a decoder-produced raster and decoding it again restores the
raster exactly. -/
theorem encode_then_decode (b : Bitmap)
    (hdeg : b.width = 0 ∨ b.height = 0 → b = ⟨0, 0, []⟩)
    (hlen : b.data.length = b.width * b.height)
    (hbits : ∀ e ∈ b.data, e ≤ 1) :
    from_klayout_string (to_klayout_string b) = .ok b := by
  by_cases hd : b.width = 0 ∨ b.height = 0
  · rw [hdeg hd]
    decide
  · push_neg at hd
    obtain ⟨hw, hh⟩ := hd
    have hret := retainedLines_encode b hw hh
    obtain ⟨first, rest, hcons⟩ : ∃ first rest,
        (List.range b.height).map (rowString b) = first :: rest := by
      cases hE : (List.range b.height).map (rowString b) with
      | nil =>
        exfalso
        simp only [List.map_eq_nil_iff, List.range_eq_nil] at hE
        omega
      | cons a l => exact ⟨a, l, rfl⟩
    have hfirstlen : first.length = b.width := by
      have : first ∈ (List.range b.height).map (rowString b) := by
        rw [hcons]; simp
      simp only [List.mem_map] at this
      obtain ⟨y, _, rfl⟩ := this
      simp [rowString]
    have hallrows : ∀ l ∈ first :: rest, l.length = b.width ∧ validLine l := by
      intro l hl
      rw [← hcons] at hl
      simp only [List.mem_map] at hl
      obtain ⟨y, _, rfl⟩ := hl
      refine ⟨by simp [rowString], ?_⟩
      intro c hc
      simp only [rowString, List.mem_map] at hc
      obtain ⟨x, _, rfl⟩ := hc
      unfold bitChar
      split
      · exact Or.inl rfl
      · exact Or.inr rfl
    have hdec := decodeLines_ok_of_valid b.width (first :: rest) 0 hallrows
    rw [← hfirstlen] at hdec
    have hfk : from_klayout_string (to_klayout_string b) =
        .ok ⟨first.length, (first :: rest).length,
          (((first :: rest).map (fun l => l.map enc01)).flatten)⟩ := by
      simp only [from_klayout_string, hret, hcons, hdec]
    rw [hfk]
    have hheight : (first :: rest).length = b.height := by
      rw [← hcons]; simp
    have hdata : ((first :: rest).map (fun l => l.map enc01)).flatten = b.data := by
      rw [← hcons, List.map_map]
      have hstep : (List.range b.height).map ((fun l => l.map enc01) ∘ rowString b) =
          (List.range b.height).map (fun y => (List.range b.width).map
            (fun x => if b.data.getD (y * b.width + x) 0 ≠ 0 then 1 else 0)) := by
        apply List.map_congr_left
        intro y _
        simp only [Function.comp, rowString, List.map_map]
        apply List.map_congr_left
        intro x _
        simp only [Function.comp]
        exact enc01_bitChar _
      rw [hstep]
      have hlens : ∀ r ∈ (List.range b.height).map (fun y => (List.range b.width).map
          (fun x => if b.data.getD (y * b.width + x) 0 ≠ 0 then 1 else 0)),
          r.length = b.width := by
        intro r hr
        simp only [List.mem_map] at hr
        obtain ⟨y, _, rfl⟩ := hr
        simp
      apply List.ext_getElem
      · rw [flatten_rows_length _ b.width hlens]
        simp [hlen, Nat.mul_comm]
      · intro i h1 h2
        have hiw : i < b.height * b.width := by
          rw [flatten_rows_length _ b.width hlens] at h1
          simpa using h1
        have hwpos : 0 < b.width := Nat.pos_of_ne_zero hw
        have hiw' : i < b.width * b.height := by rw [Nat.mul_comm]; exact hiw
        have hybound : i / b.width < b.height := Nat.div_lt_of_lt_mul hiw'
        have hxbound : i % b.width < b.width := Nat.mod_lt _ hwpos
        have hdecomp : i = (i / b.width) * b.width + i % b.width := by
          rw [Nat.mul_comm (i / b.width) b.width]
          exact (Nat.div_add_mod i b.width).symm
        rw [← List.getD_eq_getElem _ 0 h1, ← List.getD_eq_getElem _ 0 h2]
        conv_lhs => rw [hdecomp]
        rw [flatten_rows_getD _ b.width hlens (i / b.width) (i % b.width)
          (by simpa using hybound) hxbound]
        rw [getD_map_range b.height _ (i / b.width) [] hybound]
        rw [getD_map_range b.width _ (i % b.width) 0 hxbound]
        rw [← hdecomp]
        have hmem : b.data.getD i 0 = b.data[i] := List.getD_eq_getElem _ 0 h2
        rw [hmem]
        have : b.data[i] ≤ 1 := hbits _ (List.getElem_mem h2)
        rcases Nat.le_one_iff_eq_zero_or_eq_one.mp this with h0 | h0 <;> simp [h0]
    rw [hfirstlen, hheight, hdata]

/-- Claim C6 (pattern-text round trip): re-decoding the encoding of a decoded
raster restores it exactly; encoding is one line per row joined by newlines
with one symbol per column; the 0×0 raster encodes to the empty string. -/
theorem C6_pattern_round_trip (p : List Char) (b : Bitmap)
    (h : from_klayout_string p = .ok b) :
    from_klayout_string (to_klayout_string b) = .ok b ∧
    (b.width ≠ 0 → b.height ≠ 0 →
      to_klayout_string b =
        List.intercalate ['\n'] ((List.range b.height).map (rowString b)) ∧
      ∀ y : Nat, (rowString b y).length = b.width) ∧
    to_klayout_string ⟨0, 0, []⟩ = [] := by
  obtain ⟨hlen, hbits, hdeg⟩ := from_klayout_string_props p b h
  refine ⟨encode_then_decode b hdeg hlen hbits, fun hw _ => ?_, by decide⟩
  constructor
  · unfold to_klayout_string
    rw [if_neg (by tauto)]
  · intro y
    simp [rowString]

/-- Witness for C6 at the concrete pattern text `".*\n*."`. -/
theorem C6_pattern_round_trip_witness :
    from_klayout_string ( ".*\n*.".toList ) = .ok ⟨2, 2, [0, 1, 1, 0]⟩ ∧
    from_klayout_string (to_klayout_string ⟨2, 2, [0, 1, 1, 0]⟩) =
      .ok ⟨2, 2, [0, 1, 1, 0]⟩ :=
  ⟨by decide,
   (C6_pattern_round_trip ( ".*\n*.".toList ) ⟨2, 2, [0, 1, 1, 0]⟩ (by decide)).1⟩

/-- Claim C8 (pattern-text decoding failures): the two concrete error
scenarios, success on every input whose retained lines are uniform and use
only the two symbols, and the precise error raised when the first problem in
document order is a line-length mismatch or an invalid character. -/
theorem C8_pattern_decode_failures :
    (from_klayout_string ( ".*@\n***".toList ) = .error (.invalidCharacter '@' 0)) ∧
    (from_klayout_string ( "**.\n****".toList ) =
      .error (.inconsistentLineLength 1 4 3)) ∧
    (∀ s : List Char, (∀ l ∈ retainedLines s,
        l.length = ((retainedLines s).headD []).length ∧ validLine l) →
      ∃ b, from_klayout_string s = .ok b) ∧
    (∀ s : List Char, (∃ l ∈ retainedLines s,
        l.length ≠ ((retainedLines s).headD []).length) →
      ∃ e, from_klayout_string s = .error e) ∧
    (∀ (s : List Char) (first : List Char) (rest : List (List Char))
        (pre : List (List Char)) (l : List Char) (suf : List (List Char)),
      retainedLines s = first :: rest → first :: rest = pre ++ l :: suf →
      (∀ q ∈ pre, q.length = first.length ∧ validLine q) → l.length ≠ first.length →
      from_klayout_string s =
        .error (.inconsistentLineLength pre.length l.length first.length)) ∧
    (∀ (s : List Char) (first : List Char) (rest : List (List Char))
        (pre : List (List Char)) (cpre : List Char) (c : Char) (csuf : List Char)
        (suf : List (List Char)),
      retainedLines s = first :: rest →
      first :: rest = pre ++ (cpre ++ c :: csuf) :: suf →
      (∀ q ∈ pre, q.length = first.length ∧ validLine q) →
      (cpre ++ c :: csuf).length = first.length → validLine cpre →
      ¬ (c = '*' ∨ c = '.') →
      from_klayout_string s = .error (.invalidCharacter c pre.length)) := by
  refine ⟨by decide, by decide, ?_, ?_, ?_, ?_⟩
  · intro s hall
    cases hL : retainedLines s with
    | nil => exact ⟨⟨0, 0, []⟩, by simp only [from_klayout_string, hL]⟩
    | cons first rest =>
      rw [hL] at hall
      have hall' : ∀ l ∈ first :: rest, l.length = first.length ∧ validLine l := by
        simpa using hall
      have hD := decodeLines_ok_of_valid first.length (first :: rest) 0 hall'
      exact ⟨⟨first.length, (first :: rest).length,
        (((first :: rest).map (fun l => l.map enc01)).flatten)⟩,
        by simp only [from_klayout_string, hL, hD]⟩
  · intro s hbad
    cases hL : retainedLines s with
    | nil => rw [hL] at hbad; simp at hbad
    | cons first rest =>
      rw [hL] at hbad
      obtain ⟨l, hl, hlen⟩ := hbad
      cases hD : decodeLines first.length 0 (first :: rest) with
      | ok data =>
        exfalso
        obtain ⟨_, hls⟩ := decodeLines_ok_inv first.length _ 0 data hD
        exact hlen (by simpa using (hls l hl).1)
      | error e =>
        exact ⟨e, by simp only [from_klayout_string, hL, hD]⟩
  · intro s first rest pre l suf hL hsplit hpre hlen
    have hD := decodeLines_first_len_err first.length pre l suf 0 hpre hlen
    rw [← hsplit] at hD
    rw [Nat.zero_add] at hD
    simp only [from_klayout_string, hL, hD]
  · intro s first rest pre cpre c csuf suf hL hsplit hpre hclen hcpre hc
    have hD := decodeLines_first_char_err first.length pre cpre c csuf suf 0
      hpre hclen hcpre hc
    rw [← hsplit] at hD
    rw [Nat.zero_add] at hD
    simp only [from_klayout_string, hL, hD]

/-- Witness for C8: the general success and first-error parts applied at
concrete inputs. -/
theorem C8_pattern_decode_failures_witness :
    (∃ b, from_klayout_string ( "*.\n.*".toList ) = .ok b) ∧
    from_klayout_string ( "**.\n****".toList ) =
      .error (.inconsistentLineLength 1 4 3) := by
  refine ⟨C8_pattern_decode_failures.2.2.1 ( "*.\n.*".toList ) (by decide), ?_⟩
  exact C8_pattern_decode_failures.2.2.2.2.1 ( "**.\n****".toList )
    (['*','*','.']) ([['*','*','*','*']]) ([['*','*','.']]) (['*','*','*','*']) []
    (by decide) (by decide) (by decide) (by decide)

/-! Bitwise arithmetic toolkit for the MSB-first byte packing. -/

theorem and_one_le_one (x : Nat) : x &&& 1 ≤ 1 := by
  rw [Nat.and_one_is_mod]
  omega

theorem testBit_double_zero (a : Nat) : (a * 2).testBit 0 = false := by
  rw [Nat.testBit_zero]
  simp [Nat.mul_mod_left]

theorem testBit_double_succ (a i : Nat) : (a * 2).testBit (i + 1) = a.testBit i := by
  rw [Nat.testBit_succ]
  congr 1
  omega

theorem testBit_double_one_zero (a : Nat) : (a * 2 + 1).testBit 0 = true := by
  rw [Nat.testBit_zero]
  have hmod : (a * 2 + 1) % 2 = 1 := by omega
  simp [hmod]

theorem testBit_double_one_succ (a i : Nat) :
    (a * 2 + 1).testBit (i + 1) = a.testBit i := by
  rw [Nat.testBit_succ]
  have hdiv : (a * 2 + 1) / 2 = a := by omega
  rw [hdiv]

theorem double_or_double (a b : Nat) : (a * 2) ||| (b * 2) = (a ||| b) * 2 := by
  apply Nat.eq_of_testBit_eq
  intro i
  cases i with
  | zero =>
    rw [Nat.testBit_or, testBit_double_zero, testBit_double_zero, testBit_double_zero]
    rfl
  | succ i =>
    rw [Nat.testBit_or, testBit_double_succ, testBit_double_succ, testBit_double_succ,
      Nat.testBit_or]

theorem double_or_one (a : Nat) : (a * 2) ||| 1 = a * 2 + 1 := by
  apply Nat.eq_of_testBit_eq
  intro i
  cases i with
  | zero =>
    rw [Nat.testBit_or, testBit_double_zero, testBit_double_one_zero]
    decide
  | succ i =>
    rw [Nat.testBit_or, testBit_double_succ, testBit_double_one_succ]
    have h1 : (1 : Nat).testBit (i + 1) = false := by
      rw [Nat.testBit_succ]
      simp
    rw [h1, Bool.or_false]

theorem or_mul_two_pow_succ (v t : Nat) :
    (v * 2 ^ (t + 1)) ||| 2 ^ t = v * 2 ^ (t + 1) + 2 ^ t := by
  induction t generalizing v with
  | zero => simpa using double_or_one v
  | succ t ih =>
    have lhs_eq : v * 2 ^ (t + 2) ||| 2 ^ (t + 1) =
        (v * 2 ^ (t + 1)) * 2 ||| 2 ^ t * 2 := by
      have e1 : v * 2 ^ (t + 2) = (v * 2 ^ (t + 1)) * 2 := by ring
      have e2 : (2 : Nat) ^ (t + 1) = 2 ^ t * 2 := by ring
      rw [e1, e2]
    rw [lhs_eq, double_or_double, ih]
    ring

theorem double_or_bit (b c : Nat) : (b <<< 1) ||| (c &&& 1) = 2 * b + (c &&& 1) := by
  have h1 : b <<< 1 = b * 2 := by simp [Nat.shiftLeft_eq]
  have h2 := and_one_le_one c
  interval_cases h : (c &&& 1)
  · rw [h1]
    simp [Nat.mul_comm]
  · rw [h1, double_or_one]
    ring

/-! Specification form of the MSB-first packing: the stream of packed bytes,
byte `j` covering bits `8j .. 8j+7`, the final byte zero-padded low. -/

/-- Big-endian accumulation of a chunk of bits starting from `b`. -/
def chunkFoldFrom (b : Nat) (l : List Nat) : Nat :=
  l.foldl (fun a x => 2 * a + (x &&& 1)) b

/-- Big-endian value of a chunk of bits. -/
def chunkFold (l : List Nat) : Nat := chunkFoldFrom 0 l

/-- Value of the packed byte for a chunk of at most 8 bits (low zero pad). -/
def byteOfChunk (l : List Nat) : Nat := chunkFold l * 2 ^ (8 - l.length)

/-- The packed byte stream of a bit sequence. -/
def packBytes (bits : List Nat) : List Nat :=
  (List.range ((bits.length + 7) / 8)).map
    (fun j => byteOfChunk ((bits.drop (8 * j)).take 8))

theorem chunkFoldFrom_cons (b x : Nat) (l : List Nat) :
    chunkFoldFrom b (x :: l) = chunkFoldFrom (2 * b + (x &&& 1)) l := rfl

theorem chunkFoldFrom_eq (l : List Nat) :
    ∀ b, chunkFoldFrom b l = b * 2 ^ l.length + chunkFold l := by
  induction l with
  | nil => intro b; simp [chunkFoldFrom, chunkFold]
  | cons x l ih =>
    intro b
    rw [chunkFoldFrom_cons, ih (2 * b + (x &&& 1))]
    have hc : chunkFold (x :: l) = (x &&& 1) * 2 ^ l.length + chunkFold l := by
      have : chunkFold (x :: l) = chunkFoldFrom (x &&& 1) l := by
        rw [chunkFold, chunkFoldFrom_cons]
        norm_num
      rw [this, ih (x &&& 1)]
    rw [hc, List.length_cons]
    ring

theorem chunkFold_lt (l : List Nat) : chunkFold l < 2 ^ l.length := by
  induction l with
  | nil => simp [chunkFold, chunkFoldFrom]
  | cons x l ih =>
    have hx := and_one_le_one x
    have hc : chunkFold (x :: l) = (x &&& 1) * 2 ^ l.length + chunkFold l := by
      have : chunkFold (x :: l) = chunkFoldFrom (x &&& 1) l := by
        rw [chunkFold, chunkFoldFrom_cons]
        norm_num
      rw [this, chunkFoldFrom_eq l (x &&& 1)]
    rw [hc, List.length_cons, pow_succ]
    have hA : 0 < 2 ^ l.length := Nat.pos_pow_of_pos _ (by omega)
    have hle : (x &&& 1) * 2 ^ l.length ≤ 2 ^ l.length := by
      calc (x &&& 1) * 2 ^ l.length ≤ 1 * 2 ^ l.length :=
        Nat.mul_le_mul_right _ hx
      _ = 2 ^ l.length := by ring
    omega

theorem byteOfChunk_lt (l : List Nat) (h : l.length ≤ 8) : byteOfChunk l < 256 := by
  have h1 := chunkFold_lt l
  have h2 : byteOfChunk l < 2 ^ l.length * 2 ^ (8 - l.length) := by
    unfold byteOfChunk
    exact Nat.mul_lt_mul_of_lt_of_le h1 (le_refl _) (Nat.pos_pow_of_pos _ (by omega))
  have h3 : (2 : Nat) ^ l.length * 2 ^ (8 - l.length) = 2 ^ 8 := by
    rw [← pow_add]
    congr 1
    omega
  rw [h3] at h2
  simpa using h2

theorem byteOfChunk_append (l : List Nat) (b : Nat) (h : l.length < 8) :
    byteOfChunk (l ++ [b]) = byteOfChunk l + (b &&& 1) * 2 ^ (7 - l.length) := by
  have h1 : chunkFold (l ++ [b]) = 2 * chunkFold l + (b &&& 1) := by
    rw [chunkFold, chunkFoldFrom, List.foldl_append]
    rfl
  unfold byteOfChunk
  rw [h1, List.length_append]
  have hexp : 8 - l.length = (8 - (l.length + 1)) + 1 := by omega
  rw [hexp, pow_succ]
  simp only [List.length_singleton]
  have hexp2 : 7 - l.length = 8 - (l.length + 1) := by omega
  rw [hexp2]
  ring

/-! The imperative packing loop of `bitmap.py`. -/

/-- Body of the `Bitmap.bits_to_bytes` loop:
`if bit: out[i // 8] |= 1 << (7 - i % 8)`. -/
def btbStep (bits : List Nat) (out : List Nat) (i : Nat) : List Nat :=
  if bits.getD i 0 ≠ 0 then
    out.set (i / 8) (out.getD (i / 8) 0 ||| (1 <<< (7 - i % 8)))
  else out

/-- `Bitmap.bits_to_bytes`: pack a 1-bit-per-entry array into bytes,
most significant bit first, over a zeroed byte array of `ceil(n/8)` bytes. -/
def bits_to_bytes (bits : List Nat) : List Nat :=
  (List.range bits.length).foldl (btbStep bits)
    (List.replicate ((bits.length + 7) / 8) 0)

/-- `Bitmap.bytes_to_bits`: unpack `n_bits` bits MSB-first. Python indexes
`data[i // 8]` and raises `IndexError` on a short array (turned into
`ValueError` by `from_compact_filename`); the length guard models that. -/
def bytes_to_bits (data : List Nat) (n_bits : Nat) : Except Unit (List Nat) :=
  if (n_bits + 7) / 8 ≤ data.length then
    .ok ((List.range n_bits).map
      (fun i => (data.getD (i / 8) 0 >>> (7 - i % 8)) &&& 1))
  else .error ()

theorem byteOfChunk_nil : byteOfChunk [] = 0 := by
  simp [byteOfChunk, chunkFold, chunkFoldFrom]

theorem btb_fold_eq (bits : List Nat) (hb : ∀ e ∈ bits, e ≤ 1) :
    ∀ m, m ≤ bits.length →
    (List.range m).foldl (btbStep bits) (List.replicate ((bits.length + 7) / 8) 0) =
    (List.range ((bits.length + 7) / 8)).map
      (fun j => byteOfChunk ((bits.drop (8 * j)).take (min 8 (m - 8 * j)))) := by
  intro m
  induction m with
  | zero =>
    intro _
    simp only [List.range_zero, List.foldl_nil]
    symm
    rw [List.eq_replicate_iff]
    refine ⟨by simp, ?_⟩
    intro b hbm
    simp only [List.mem_map] at hbm
    obtain ⟨j, _, rfl⟩ := hbm
    simp [byteOfChunk_nil]
  | succ m ih =>
    intro hm1
    have hm : m ≤ bits.length := by omega
    have hmlt : m < bits.length := by omega
    rw [List.range_succ, List.foldl_append, ih hm, List.foldl_cons, List.foldl_nil]
    have hchunklen : ∀ j : Nat, ((bits.drop (8 * j)).take (min 8 (m - 8 * j))).length =
        min (min 8 (m - 8 * j)) (bits.length - 8 * j) := by
      intro j
      simp [List.length_take, List.length_drop]
    have hgrow : ((bits.drop (8 * (m / 8))).take (min 8 (m + 1 - 8 * (m / 8)))) =
        ((bits.drop (8 * (m / 8))).take (min 8 (m - 8 * (m / 8)))) ++ [bits.getD m 0] := by
      have h1 : min 8 (m + 1 - 8 * (m / 8)) = m % 8 + 1 := by omega
      have h2 : min 8 (m - 8 * (m / 8)) = m % 8 := by omega
      rw [h1, h2, List.take_succ]
      congr 1
      rw [List.getElem?_drop]
      have h3 : 8 * (m / 8) + m % 8 = m := by omega
      rw [h3, List.getElem?_eq_getElem hmlt, List.getD_eq_getElem _ 0 hmlt]
      rfl
    have hsame : ∀ j : Nat, j ≠ m / 8 →
        ((bits.drop (8 * j)).take (min 8 (m + 1 - 8 * j))) =
        ((bits.drop (8 * j)).take (min 8 (m - 8 * j))) := by
      intro j hj
      have : 8 * j + 8 ≤ m ∨ m + 1 ≤ 8 * j := by omega
      rcases this with h | h
      · have e1 : min 8 (m + 1 - 8 * j) = 8 := by omega
        have e2 : min 8 (m - 8 * j) = 8 := by omega
        rw [e1, e2]
      · have e1 : min 8 (m + 1 - 8 * j) = 0 := by omega
        have e2 : min 8 (m - 8 * j) = 0 := by omega
        rw [e1, e2]
    by_cases hz : bits.getD m 0 ≠ 0
    · -- the loop sets bit 7 - m % 8 of byte m / 8
      have hb1 : bits.getD m 0 = 1 := by
        have : bits.getD m 0 ≤ 1 := by
          rw [List.getD_eq_getElem _ 0 hmlt]
          exact hb _ (List.getElem_mem hmlt)
        omega
      have hN : m / 8 < (bits.length + 7) / 8 := by omega
      rw [btbStep, if_pos hz]
      apply List.ext_getElem
      · simp
      · intro j hj1 hj2
        have hjN : j < (bits.length + 7) / 8 := by simpa using hj2
        rw [List.getElem_map, List.getElem_range]
        by_cases hjm : j = m / 8
        · subst hjm
          rw [List.getElem_set_self]
          rw [getD_map_range _ _ _ _ hN]
          have hclen : ((bits.drop (8 * (m / 8))).take (min 8 (m - 8 * (m / 8)))).length =
              m % 8 := by
            rw [hchunklen]
            omega
          have hbyte : byteOfChunk ((bits.drop (8 * (m / 8))).take (min 8 (m - 8 * (m / 8)))) =
              chunkFold ((bits.drop (8 * (m / 8))).take (min 8 (m - 8 * (m / 8)))) *
                2 ^ (7 - m % 8 + 1) := by
            unfold byteOfChunk
            rw [hclen]
            congr 2
            omega
          rw [hgrow, byteOfChunk_append _ _ (by rw [hclen]; omega), hclen, hb1]
          rw [hbyte]
          have hshift : (1 : Nat) <<< (7 - m % 8) = 2 ^ (7 - m % 8) := by
            rw [Nat.shiftLeft_eq, Nat.one_mul]
          rw [hshift, or_mul_two_pow_succ, ← hbyte]
          simp [Nat.and_one_is_mod]
        · rw [List.getElem_set_ne (by omega)]
          rw [List.getElem_map, List.getElem_range, hsame j hjm]
    · rw [btbStep, if_neg hz]
      apply List.map_congr_left
      intro j hjr
      by_cases hjm : j = m / 8
      · subst hjm
        rw [hgrow]
        push_neg at hz
        have hclen : ((bits.drop (8 * (m / 8))).take (min 8 (m - 8 * (m / 8)))).length =
            m % 8 := by
          rw [hchunklen]
          omega
        rw [byteOfChunk_append _ _ (by rw [hclen]; omega), hz]
        simp
      · rw [hsame j hjm]

/-- The imperative packing loop computes exactly the specification packing. -/
theorem bits_to_bytes_eq_packBytes (bits : List Nat) (hb : ∀ e ∈ bits, e ≤ 1) :
    bits_to_bytes bits = packBytes bits := by
  rw [bits_to_bytes, btb_fold_eq bits hb bits.length (le_refl _), packBytes]
  apply List.map_congr_left
  intro j hj
  congr 1
  by_cases h8 : 8 ≤ bits.length - 8 * j
  · rw [min_eq_left h8]
  · push_neg at h8
    rw [min_eq_right (by omega)]
    rw [List.take_of_length_le (by simp [List.length_drop]),
      List.take_of_length_le (by simp [List.length_drop]; omega)]

/-- Bit extraction from a packed chunk byte. -/
theorem byteOfChunk_extract (l : List Nat) (hlen : l.length ≤ 8) (k : Nat)
    (hk : k < l.length) :
    (byteOfChunk l >>> (7 - k)) &&& 1 = l.getD k 0 &&& 1 := by
  set bk := l.getD k 0 &&& 1 with hbk
  set A := chunkFold (l.take (k + 1)) with hA0
  set B := chunkFold (l.drop (k + 1)) with hB0
  have hlen2 : (l.drop (k + 1)).length = l.length - (k + 1) := by simp
  have hchunk : chunkFold l = A * 2 ^ (l.length - (k + 1)) + B := by
    conv_lhs => rw [← List.take_append_drop (k + 1) l]
    rw [chunkFold, chunkFoldFrom, List.foldl_append]
    have : List.foldl (fun a x => 2 * a + (x &&& 1))
        (List.foldl (fun a x => 2 * a + (x &&& 1)) 0 (l.take (k + 1))) (l.drop (k + 1)) =
        chunkFoldFrom A (l.drop (k + 1)) := rfl
    rw [this, chunkFoldFrom_eq, hlen2]
  have hAeq : A = 2 * chunkFold (l.take k) + bk := by
    have hsplit : l.take (k + 1) = l.take k ++ [l.getD k 0] := by
      rw [List.take_succ]
      congr 1
      rw [List.getElem?_eq_getElem hk, List.getD_eq_getElem _ 0 hk]
      rfl
    rw [hA0, hsplit, chunkFold, chunkFoldFrom, List.foldl_append]
    rfl
  have hB : B < 2 ^ (l.length - (k + 1)) := by
    have := chunkFold_lt (l.drop (k + 1))
    rwa [hlen2] at this
  have hbyte : byteOfChunk l = A * 2 ^ (7 - k) + B * 2 ^ (8 - l.length) := by
    unfold byteOfChunk
    have hexp : l.length - (k + 1) + (8 - l.length) = 7 - k := by omega
    rw [hchunk, Nat.add_mul, Nat.mul_assoc, ← pow_add, hexp]
  have hpos : (0 : Nat) < 2 ^ (7 - k) := Nat.pos_pow_of_pos _ (by omega)
  have hsmall : B * 2 ^ (8 - l.length) < 2 ^ (7 - k) := by
    calc B * 2 ^ (8 - l.length) < 2 ^ (l.length - (k + 1)) * 2 ^ (8 - l.length) :=
      Nat.mul_lt_mul_of_lt_of_le hB (le_refl _) (Nat.pos_pow_of_pos _ (by omega))
    _ = 2 ^ (7 - k) := by rw [← pow_add]; congr 1; omega
  rw [hbyte, Nat.shiftRight_eq_div_pow]
  have hdiv : (A * 2 ^ (7 - k) + B * 2 ^ (8 - l.length)) / 2 ^ (7 - k) = A := by
    rw [Nat.mul_comm A, Nat.mul_add_div hpos, Nat.div_eq_of_lt hsmall]
    omega
  rw [hdiv, Nat.and_one_is_mod]
  have hbk1 : bk ≤ 1 := and_one_le_one _
  omega

/-- Byte addressing into the packed stream recovers every bit. -/
theorem packBytes_extract (bits : List Nat) (i : Nat) (hi : i < bits.length) :
    ((packBytes bits).getD (i / 8) 0 >>> (7 - i % 8)) &&& 1 = bits.getD i 0 &&& 1 := by
  have hN : i / 8 < (bits.length + 7) / 8 := by omega
  rw [packBytes, getD_map_range _ _ _ _ hN]
  have hclen : ((bits.drop (8 * (i / 8))).take 8).length =
      min 8 (bits.length - 8 * (i / 8)) := by
    simp [List.length_take, List.length_drop]
  have hk : i % 8 < ((bits.drop (8 * (i / 8))).take 8).length := by
    rw [hclen]; omega
  rw [byteOfChunk_extract _ (by rw [hclen]; omega) (i % 8) hk]
  congr 1
  rw [List.getD_eq_getElem?_getD, List.getD_eq_getElem?_getD, List.getElem?_take,
    if_pos (by omega : i % 8 < 8), List.getElem?_drop]
  congr 2
  omega

/-- Packing then unpacking restores every 0/1 bit array. -/
theorem bytes_to_bits_bits_to_bytes (bits : List Nat) (hb : ∀ e ∈ bits, e ≤ 1) :
    bytes_to_bits (bits_to_bytes bits) bits.length = .ok bits := by
  rw [bits_to_bytes_eq_packBytes bits hb]
  have hlenb : (packBytes bits).length = (bits.length + 7) / 8 := by simp [packBytes]
  rw [bytes_to_bits, if_pos (by rw [hlenb])]
  congr 1
  apply List.ext_getElem
  · simp
  · intro i h1 h2
    rw [List.getElem_map, List.getElem_range]
    have hi : i < bits.length := by simpa using h2
    rw [packBytes_extract bits i hi]
    rw [List.getD_eq_getElem _ 0 hi, Nat.and_one_is_mod]
    have : bits[i] ≤ 1 := hb _ (List.getElem_mem hi)
    omega

/-! Compact content id codec (`from_compact_filename` / `to_compact_filename`).
The base36 helpers live in `klayout_plugin_utils.base36`, which is not part of
this repository, so they are modelled from the spec (§4.1/§6): a reversible
base-36 encoding over the alphabet `0-9a-z`. -/

/-- Modelled from the spec: one symbol of the 36-symbol alphabet `0-9a-z`. -/
def base36Digit (n : Nat) : Char :=
  if n < 10 then Char.ofNat (48 + n) else Char.ofNat (87 + n)

/-- Modelled from the spec: value of one base-36 symbol, `none` outside the
alphabet. -/
def base36DigitVal (c : Char) : Option Nat :=
  if '0' ≤ c ∧ c ≤ '9' then some (c.toNat - 48)
  else if 'a' ≤ c ∧ c ≤ 'z' then some (c.toNat - 87)
  else none

/-- Fuelled little-endian base-36 digit expansion of a natural number. -/
def natDigitsRevGo : Nat → Nat → List Nat
  | 0, _ => []
  | fuel + 1, n => if n = 0 then [] else n % 36 :: natDigitsRevGo fuel (n / 36)

/-- Modelled from the spec: `int_to_base36`, the base-36 numeral of a natural
number over `0-9a-z`, with `"0"` for zero. -/
def int_to_base36 (n : Nat) : List Char :=
  if n = 0 then ['0'] else ((natDigitsRevGo n n).reverse).map base36Digit

/-- Big-endian fold of base-36 symbols, failing on a symbol outside the
alphabet. -/
def base36FoldGo (acc : Nat) : List Char → Except Unit Nat
  | [] => .ok acc
  | c :: rest =>
    match base36DigitVal c with
    | some d => base36FoldGo (acc * 36 + d) rest
    | none => .error ()

/-- Modelled from the spec: `base36_to_int`, big-endian fold of base-36
symbols; the empty string or a symbol outside the alphabet is an error (the
Python `int(_, 36)` raises `ValueError`). -/
def base36_to_int (s : List Char) : Except Unit Nat :=
  if s.isEmpty then .error () else base36FoldGo 0 s

/-- Modelled from the spec: `bytes_to_base36`. The spec requires a reversible
base-36 encoding of the packed bytes over `0-9a-z`; modelled as fixed-width
base 36, two symbols per byte. -/
def bytes_to_base36 (bs : List Nat) : List Char :=
  bs.flatMap (fun b => [base36Digit (b / 36), base36Digit (b % 36)])

/-- Modelled from the spec: `base36_to_bytes`, the exact inverse of
`bytes_to_base36`; malformed input is an error. -/
def base36_to_bytes : List Char → Except Unit (List Nat)
  | [] => .ok []
  | [_] => .error ()
  | c1 :: c2 :: rest =>
    match base36DigitVal c1, base36DigitVal c2, base36_to_bytes rest with
    | some d1, some d2, .ok bs => .ok ((d1 * 36 + d2) :: bs)
    | _, _, _ => .error ()

/-- One step of Python `str.split(sep, maxsplit)`: split at the first
occurrence of the separator, `none` when it does not occur. -/
def splitFirst (sep : Char) : List Char → Option (List Char × List Char)
  | [] => none
  | c :: rest =>
    if c = sep then some ([], rest)
    else
      match splitFirst sep rest with
      | some (pre, post) => some (c :: pre, post)
      | none => none

/-- `Bitmap.from_compact_filename`: split on the first two underscores,
base36-decode width, height and the packed data, then unpack `width*height`
bits; every failure becomes the `ValueError` of the Python `except` block. -/
def from_compact_filename (s : List Char) : Except Unit Bitmap :=
  match splitFirst '_' s with
  | none => .error ()
  | some (w_str, rest) =>
    match splitFirst '_' rest with
    | none => .error ()
    | some (h_str, data_str) =>
      match base36_to_int w_str, base36_to_int h_str with
      | .ok width, .ok height =>
        match base36_to_bytes data_str with
        | .ok packed =>
          match bytes_to_bits packed (width * height) with
          | .ok data => .ok ⟨width, height, data⟩
          | .error _ => .error ()
        | .error _ => .error ()
      | _, _ => .error ()

/-- `Bitmap.to_compact_filename`:
`base36(width) ++ "_" ++ base36(height) ++ "_" ++ base36(packed bits)`. -/
def to_compact_filename (b : Bitmap) : List Char :=
  int_to_base36 b.width ++
    '_' :: (int_to_base36 b.height ++ '_' :: bytes_to_base36 (bits_to_bytes b.data))

theorem base36Digit_val (n : Nat) (h : n < 36) :
    base36DigitVal (base36Digit n) = some n := by
  interval_cases n <;> decide

theorem base36Digit_ne_underscore (n : Nat) (h : n < 36) : base36Digit n ≠ '_' := by
  interval_cases n <;> decide

theorem natDigitsRevGo_lt (fuel : Nat) : ∀ n d, d ∈ natDigitsRevGo fuel n → d < 36 := by
  induction fuel with
  | zero => intro n d hd; simp [natDigitsRevGo] at hd
  | succ fuel ih =>
    intro n d hd
    by_cases hn : n = 0
    · simp [natDigitsRevGo, hn] at hd
    · simp only [natDigitsRevGo, if_neg hn] at hd
      rcases List.mem_cons.mp hd with rfl | hd
      · exact Nat.mod_lt _ (by omega)
      · exact ih _ _ hd

/-- Little-endian valuation of a base-36 digit list. -/
def valLE36 : List Nat → Nat
  | [] => 0
  | d :: ds => d + 36 * valLE36 ds

theorem natDigitsRevGo_val (fuel : Nat) : ∀ n, n ≤ fuel →
    valLE36 (natDigitsRevGo fuel n) = n := by
  induction fuel with
  | zero => intro n hn; interval_cases n; rfl
  | succ fuel ih =>
    intro n hn
    by_cases hn0 : n = 0
    · simp [natDigitsRevGo, hn0, valLE36]
    · simp only [natDigitsRevGo, if_neg hn0, valLE36]
      have hdiv : n / 36 ≤ fuel := by
        have := Nat.div_lt_self (Nat.pos_of_ne_zero hn0) (by omega : 1 < 36)
        omega
      rw [ih _ hdiv]
      omega

theorem foldl_reverse_val36 (ds : List Nat) :
    ∀ acc, ds.reverse.foldl (fun a d => a * 36 + d) acc =
      acc * 36 ^ ds.length + valLE36 ds := by
  induction ds with
  | nil => intro acc; simp [valLE36]
  | cons d ds ih =>
    intro acc
    simp only [List.reverse_cons, List.foldl_append, List.foldl_cons, List.foldl_nil]
    rw [ih acc, valLE36, List.length_cons]
    ring

theorem base36FoldGo_digits (ds : List Nat) (h : ∀ d ∈ ds, d < 36) :
    ∀ acc, base36FoldGo acc (ds.map base36Digit) =
      .ok (ds.foldl (fun a d => a * 36 + d) acc) := by
  induction ds with
  | nil => intro acc; rfl
  | cons d ds ih =>
    intro acc
    have hd := h d (by simp)
    simp only [List.map_cons, base36FoldGo, base36Digit_val d hd, List.foldl_cons]
    exact ih (fun x hx => h x (List.mem_cons_of_mem _ hx)) (acc * 36 + d)

theorem base36_int_round_trip (n : Nat) :
    base36_to_int (int_to_base36 n) = .ok n := by
  by_cases hn : n = 0
  · subst hn; decide
  · have hne : natDigitsRevGo n n ≠ [] := by
      cases n with
      | zero => exact absurd rfl hn
      | succ m => simp [natDigitsRevGo]
    unfold int_to_base36 base36_to_int
    rw [if_neg hn]
    rw [if_neg (by simp [List.isEmpty_iff, hne])]
    rw [base36FoldGo_digits _ (fun d hd => natDigitsRevGo_lt n n d (List.mem_reverse.mp hd)) 0]
    rw [foldl_reverse_val36, natDigitsRevGo_val n n (le_refl _)]
    simp

theorem mem_int_to_base36 (n : Nat) (c : Char) (hc : c ∈ int_to_base36 n) :
    ∃ d, d < 36 ∧ c = base36Digit d := by
  unfold int_to_base36 at hc
  by_cases hn : n = 0
  · rw [if_pos hn] at hc
    simp at hc
    exact ⟨0, by omega, by rw [hc]; decide⟩
  · rw [if_neg hn] at hc
    simp only [List.mem_map] at hc
    obtain ⟨d, hd, rfl⟩ := hc
    exact ⟨d, natDigitsRevGo_lt n n d (List.mem_reverse.mp hd), rfl⟩

theorem int_to_base36_no_underscore (n : Nat) : ∀ c ∈ int_to_base36 n, c ≠ '_' := by
  intro c hc
  obtain ⟨d, hd, rfl⟩ := mem_int_to_base36 n c hc
  exact base36Digit_ne_underscore d hd

theorem splitFirst_append (sep : Char) (pre post : List Char)
    (h : ∀ c ∈ pre, c ≠ sep) :
    splitFirst sep (pre ++ sep :: post) = some (pre, post) := by
  induction pre with
  | nil => simp [splitFirst]
  | cons c pre ih =>
    have hc := h c (by simp)
    simp [splitFirst, hc, ih (fun x hx => h x (List.mem_cons_of_mem _ hx))]

theorem base36_bytes_round_trip (bs : List Nat) (h : ∀ b ∈ bs, b < 256) :
    base36_to_bytes (bytes_to_base36 bs) = .ok bs := by
  induction bs with
  | nil => rfl
  | cons b bs ih =>
    have hb := h b (by simp)
    have hdiv : b / 36 < 36 := by omega
    have hmod : b % 36 < 36 := Nat.mod_lt _ (by omega)
    simp only [bytes_to_base36, List.flatMap_cons, List.cons_append, List.nil_append]
    show base36_to_bytes (base36Digit (b / 36) :: base36Digit (b % 36) ::
      bytes_to_base36 bs) = _
    simp only [base36_to_bytes, base36Digit_val _ hdiv, base36Digit_val _ hmod,
      ih (fun x hx => h x (List.mem_cons_of_mem _ hx))]
    have : b / 36 * 36 + b % 36 = b := by omega
    rw [this]

theorem bits_to_bytes_lt_256 (bits : List Nat) (hb : ∀ e ∈ bits, e ≤ 1) :
    ∀ byte ∈ bits_to_bytes bits, byte < 256 := by
  rw [bits_to_bytes_eq_packBytes bits hb]
  intro byte hbyte
  simp only [packBytes, List.mem_map] at hbyte
  obtain ⟨j, _, rfl⟩ := hbyte
  apply byteOfChunk_lt
  simp [List.length_take]

/-- Claim C1 (compact content id round trip): decoding the encoded compact id
reproduces the raster exactly, for every raster including the 0×0 one. -/
theorem C1_compact_id_round_trip (b : Bitmap)
    (hlen : b.data.length = b.width * b.height)
    (hbits : ∀ e ∈ b.data, e ≤ 1) :
    from_compact_filename (to_compact_filename b) = .ok b := by
  have h1 := splitFirst_append '_' (int_to_base36 b.width)
    (int_to_base36 b.height ++ '_' :: bytes_to_base36 (bits_to_bytes b.data))
    (int_to_base36_no_underscore b.width)
  have h2 := splitFirst_append '_' (int_to_base36 b.height)
    (bytes_to_base36 (bits_to_bytes b.data)) (int_to_base36_no_underscore b.height)
  simp only [to_compact_filename, from_compact_filename, h1, h2,
    base36_int_round_trip, base36_bytes_round_trip _ (bits_to_bytes_lt_256 b.data hbits)]
  rw [← hlen, bytes_to_bits_bits_to_bytes b.data hbits]

/-- Witness for C1 at the 0×0 raster and at a concrete 2×1 raster. -/
theorem C1_compact_id_round_trip_witness :
    from_compact_filename (to_compact_filename ⟨0, 0, []⟩) = .ok ⟨0, 0, []⟩ ∧
    from_compact_filename (to_compact_filename ⟨2, 1, [1, 0]⟩) = .ok ⟨2, 1, [1, 0]⟩ :=
  ⟨C1_compact_id_round_trip ⟨0, 0, []⟩ (by decide) (by decide),
   C1_compact_id_round_trip ⟨2, 1, [1, 0]⟩ (by decide) (by decide)⟩

/-! PBM (binary, P4) codec: `Bitmap.to_pbm` / `Bitmap.from_pbm`. The Python
functions use a file object; the model works on the byte stream. -/

/-- One iteration of the `to_pbm` inner loop:
`byte = (byte << 1) | (bit & 1)`, flushing the byte every 8 bits. -/
def packRowStep (st : List Nat × Nat × Nat) (bit : Nat) : List Nat × Nat × Nat :=
  let byte := (st.2.1 <<< 1) ||| (bit &&& 1)
  let filled := st.2.2 + 1
  if filled = 8 then (st.1 ++ [byte], 0, 0) else (st.1, byte, filled)

/-- The bytes `to_pbm` writes for one raster row: the loop above followed by
the low zero-padding of a final partial byte. -/
def packRow (row : List Nat) : List Nat :=
  let st := row.foldl packRowStep ([], 0, 0)
  if st.2.2 > 0 then st.1 ++ [st.2.1 <<< (8 - st.2.2)] else st.1

theorem packRowStep_prefix (l : List Nat) :
    ∀ (acc : List Nat) (b f : Nat),
      l.foldl packRowStep (acc, b, f) =
      (acc ++ (l.foldl packRowStep ([], b, f)).1, (l.foldl packRowStep ([], b, f)).2) := by
  induction l with
  | nil => intro acc b f; simp
  | cons x l ih =>
    intro acc b f
    rw [List.foldl_cons, List.foldl_cons]
    simp only [packRowStep]
    by_cases hf : f + 1 = 8
    · rw [if_pos hf, if_pos hf]
      simp only [List.nil_append]
      rw [ih (acc ++ [b <<< 1 ||| (x &&& 1)]) 0 0, ih [b <<< 1 ||| (x &&& 1)] 0 0]
      simp
    · rw [if_neg hf, if_neg hf]
      exact ih acc (b <<< 1 ||| (x &&& 1)) (f + 1)

theorem packRow_foldl_low (l : List Nat) :
    ∀ (acc : List Nat) (b f : Nat), f + l.length < 8 →
      l.foldl packRowStep (acc, b, f) = (acc, chunkFoldFrom b l, f + l.length) := by
  induction l with
  | nil => intro acc b f _; simp [chunkFoldFrom]
  | cons x l ih =>
    intro acc b f hlt
    simp only [List.length_cons] at hlt
    have hf : ¬ (f + 1 = 8) := by omega
    rw [List.foldl_cons]
    simp only [packRowStep, if_neg hf]
    rw [ih acc (b <<< 1 ||| (x &&& 1)) (f + 1) (by omega), chunkFoldFrom_cons,
      double_or_bit]
    have harith : f + 1 + l.length = f + (x :: l).length := by simp; omega
    rw [harith]

theorem packRow_foldl_exact (l : List Nat) :
    ∀ (acc : List Nat) (b f : Nat), f + l.length = 8 → l ≠ [] →
      l.foldl packRowStep (acc, b, f) = (acc ++ [chunkFoldFrom b l], 0, 0) := by
  induction l with
  | nil => intro acc b f _ h; exact absurd rfl h
  | cons x l ih =>
    intro acc b f hsum _
    simp only [List.length_cons] at hsum
    by_cases hl : l = []
    · subst hl
      have hf : f + 1 = 8 := by simpa using hsum
      rw [List.foldl_cons]
      simp only [packRowStep, if_pos hf, List.foldl_nil]
      rw [chunkFoldFrom_cons, double_or_bit]
      rfl
    · have hlen : 1 ≤ l.length := List.length_pos.mpr hl
      have hf : ¬ (f + 1 = 8) := by omega
      rw [List.foldl_cons]
      simp only [packRowStep, if_neg hf]
      rw [ih acc (b <<< 1 ||| (x &&& 1)) (f + 1) (by omega) hl]
      rw [chunkFoldFrom_cons, double_or_bit]

theorem packBytes_nil : packBytes [] = [] := by
  simp [packBytes]

theorem packBytes_cons8 (row : List Nat) (h : 8 ≤ row.length) :
    packBytes row = byteOfChunk (row.take 8) :: packBytes (row.drop 8) := by
  apply List.ext_getElem
  · simp only [packBytes, List.length_map, List.length_range, List.length_cons,
      List.length_drop]
    omega
  · intro i h1 h2
    cases i with
    | zero =>
      simp only [packBytes, List.getElem_map, List.getElem_range, List.getElem_cons_zero]
      norm_num
    | succ i =>
      simp only [packBytes, List.getElem_map, List.getElem_range, List.getElem_cons_succ]
      have harith : 8 * (i + 1) = 8 + 8 * i := by omega
      rw [List.drop_drop, harith]

theorem packRow_eq_packBytes_bound (n : Nat) :
    ∀ row : List Nat, row.length ≤ n → packRow row = packBytes row := by
  induction n with
  | zero =>
    intro row h
    have : row = [] := List.eq_nil_of_length_eq_zero (by omega)
    subst this
    simp [packRow, packBytes]
  | succ n ih =>
    intro row h
    by_cases h0 : row = []
    · subst h0; simp [packRow, packBytes]
    by_cases h8 : 8 ≤ row.length
    · -- the loop flushes the first full byte, then continues on the rest
      have hsplit : row = row.take 8 ++ row.drop 8 := (List.take_append_drop _ _).symm
      have htlen : (row.take 8).length = 8 := by simp [List.length_take]; omega
      have hfirst : (row.take 8).foldl packRowStep ([], 0, 0) =
          ([chunkFoldFrom 0 (row.take 8)], 0, 0) := by
        have := packRow_foldl_exact (row.take 8) [] 0 0 (by rw [htlen])
          (by intro hc; rw [hc] at htlen; simp at htlen)
        simpa using this
      have hfold : row.foldl packRowStep ([], 0, 0) =
          ([chunkFoldFrom 0 (row.take 8)] ++
            ((row.drop 8).foldl packRowStep ([], 0, 0)).1,
           ((row.drop 8).foldl packRowStep ([], 0, 0)).2) := by
        conv_lhs => rw [hsplit]
        rw [List.foldl_append, hfirst]
        exact packRowStep_prefix (row.drop 8) [chunkFoldFrom 0 (row.take 8)] 0 0
      have hbyte0 : chunkFoldFrom 0 (row.take 8) = byteOfChunk (row.take 8) := by
        unfold byteOfChunk chunkFold
        rw [htlen]
        simp
      have hrec : packRow (row.drop 8) = packBytes (row.drop 8) := by
        apply ih
        simp only [List.length_drop]
        omega
      rw [packBytes_cons8 row h8, ← hrec]
      unfold packRow
      rw [hfold]
      simp only [hbyte0]
      by_cases hfz : ((row.drop 8).foldl packRowStep ([], 0, 0)).2.2 > 0
      · rw [if_pos hfz, if_pos hfz]
        simp
      · rw [if_neg hfz, if_neg hfz]
        simp
    · -- fewer than 8 bits: one padded byte
      push_neg at h8
      have hne : 0 < row.length := List.length_pos.mpr h0
      have hfold := packRow_foldl_low row [] 0 0 (by omega)
      unfold packRow
      rw [hfold]
      simp only [Nat.zero_add]
      rw [if_pos (by omega)]
      unfold packBytes
      have h1 : (row.length + 7) / 8 = 1 := by omega
      rw [h1]
      have hr1 : List.range 1 = [0] := rfl
      simp only [hr1, List.map_cons, List.map_nil, Nat.mul_zero,
        List.drop_zero, List.nil_append]
      rw [List.take_of_length_le (by omega : row.length ≤ 8)]
      unfold byteOfChunk chunkFold
      rw [Nat.shiftLeft_eq]

theorem packRow_eq_packBytes (row : List Nat) : packRow row = packBytes row :=
  packRow_eq_packBytes_bound row.length row (le_refl _)

/-! Decimal header tokens. -/

/-- Fuelled little-endian decimal digit expansion. -/
def natDecDigitsRevGo : Nat → Nat → List Nat
  | 0, _ => []
  | fuel + 1, n => if n = 0 then [] else n % 10 :: natDecDigitsRevGo fuel (n / 10)

/-- ASCII bytes of the decimal numeral of `n` (Python f-string `{n}`). -/
def natToDecimal (n : Nat) : List Nat :=
  if n = 0 then [48] else ((natDecDigitsRevGo n n).reverse).map (fun d => 48 + d)

/-- `int()` on a token of decimal digits. The writer only emits plain digit
runs; CPython also accepts signs and surrounding whitespace, not modelled. -/
def parseDecimal (s : List Nat) : Except Unit Nat :=
  if s = [] then .error ()
  else if s.all (fun b => 48 ≤ b ∧ b ≤ 57) then
    .ok (s.foldl (fun a b => a * 10 + (b - 48)) 0)
  else .error ()

/-- Little-endian valuation of a decimal digit list. -/
def valLE10 : List Nat → Nat
  | [] => 0
  | d :: ds => d + 10 * valLE10 ds

theorem natDecDigitsRevGo_lt (fuel : Nat) :
    ∀ n d, d ∈ natDecDigitsRevGo fuel n → d < 10 := by
  induction fuel with
  | zero => intro n d hd; simp [natDecDigitsRevGo] at hd
  | succ fuel ih =>
    intro n d hd
    by_cases hn : n = 0
    · simp [natDecDigitsRevGo, hn] at hd
    · simp only [natDecDigitsRevGo, if_neg hn] at hd
      rcases List.mem_cons.mp hd with rfl | hd
      · exact Nat.mod_lt _ (by omega)
      · exact ih _ _ hd

theorem natDecDigitsRevGo_val (fuel : Nat) : ∀ n, n ≤ fuel →
    valLE10 (natDecDigitsRevGo fuel n) = n := by
  induction fuel with
  | zero => intro n hn; interval_cases n; rfl
  | succ fuel ih =>
    intro n hn
    by_cases hn0 : n = 0
    · simp [natDecDigitsRevGo, hn0, valLE10]
    · simp only [natDecDigitsRevGo, if_neg hn0, valLE10]
      have hdiv : n / 10 ≤ fuel := by
        have := Nat.div_lt_self (Nat.pos_of_ne_zero hn0) (by omega : 1 < 10)
        omega
      rw [ih _ hdiv]
      omega

theorem foldl_reverse_val10 (ds : List Nat) :
    ∀ acc, ds.reverse.foldl (fun a d => a * 10 + d) acc =
      acc * 10 ^ ds.length + valLE10 ds := by
  induction ds with
  | nil => intro acc; simp [valLE10]
  | cons d ds ih =>
    intro acc
    simp only [List.reverse_cons, List.foldl_append, List.foldl_cons, List.foldl_nil]
    rw [ih acc, valLE10, List.length_cons]
    ring

theorem mem_natToDecimal (n : Nat) (b : Nat) (hb : b ∈ natToDecimal n) :
    48 ≤ b ∧ b ≤ 57 := by
  unfold natToDecimal at hb
  by_cases hn : n = 0
  · rw [if_pos hn] at hb
    simp at hb
    omega
  · rw [if_neg hn] at hb
    simp only [List.mem_map] at hb
    obtain ⟨d, hd, rfl⟩ := hb
    have := natDecDigitsRevGo_lt n n d (List.mem_reverse.mp hd)
    omega

theorem natToDecimal_ne_nil (n : Nat) : natToDecimal n ≠ [] := by
  unfold natToDecimal
  by_cases hn : n = 0
  · rw [if_pos hn]; simp
  · rw [if_neg hn]
    simp only [ne_eq, List.map_eq_nil_iff, List.reverse_eq_nil_iff]
    cases n with
    | zero => exact absurd rfl hn
    | succ m => simp [natDecDigitsRevGo]

theorem parseDecimal_natToDecimal (n : Nat) :
    parseDecimal (natToDecimal n) = .ok n := by
  by_cases hn : n = 0
  · subst hn; decide
  · unfold parseDecimal
    rw [if_neg (natToDecimal_ne_nil n)]
    rw [if_pos (by
      rw [List.all_eq_true]
      intro b hb
      have := mem_natToDecimal n b hb
      simp only [decide_eq_true_eq]
      omega)]
    unfold natToDecimal
    rw [if_neg hn]
    rw [List.foldl_map]
    have hcong : ((natDecDigitsRevGo n n).reverse).foldl
        (fun a d => a * 10 + (48 + d - 48)) 0 =
        ((natDecDigitsRevGo n n).reverse).foldl (fun a d => a * 10 + d) 0 :=
      foldl_ext _ _ (fun a d => by omega) _ 0
    rw [hcong, foldl_reverse_val10, natDecDigitsRevGo_val n n (le_refl _)]
    simp

/-- ASCII whitespace bytes in the sense of Python `bytes.strip`/`split`. -/
def isWSByte (b : Nat) : Bool :=
  b = 32 ∨ b = 9 ∨ b = 10 ∨ b = 13 ∨ b = 11 ∨ b = 12

/-- Python `file.readline` on a byte stream: everything up to and including
the first newline byte. -/
def readline (s : List Nat) : List Nat × List Nat :=
  let line := s.takeWhile (fun b => b ≠ 10)
  match s.dropWhile (fun b => b ≠ 10) with
  | [] => (line, [])
  | _ :: r => (line ++ [10], r)

/-- Python `bytes.strip` with no argument. -/
def bstrip (s : List Nat) : List Nat :=
  ((s.dropWhile isWSByte).reverse.dropWhile isWSByte).reverse

/-- Fuelled comment-skipping loop of `from_pbm`: read lines until one does
not start with `#` (byte 35); returns that line and the remaining stream. -/
def skipCommentsGo : Nat → List Nat → List Nat × List Nat
  | 0, s => readline s
  | fuel + 1, s =>
    let lr := readline s
    if lr.1.headD 0 = 35 then skipCommentsGo fuel lr.2 else lr

/-- Comment-skipping with enough fuel for the whole stream. -/
def skipComments (s : List Nat) : List Nat × List Nat :=
  skipCommentsGo (s.length + 1) s

/-- Fuelled Python `bytes.split()` (split on whitespace runs, no empties). -/
def splitWSGo : Nat → List Nat → List (List Nat)
  | 0, _ => []
  | fuel + 1, s =>
    let s1 := s.dropWhile isWSByte
    if s1 = [] then []
    else
      let tok := s1.takeWhile (fun b => !(isWSByte b))
      tok :: splitWSGo fuel (s1.dropWhile (fun b => !(isWSByte b)))

/-- Python `bytes.split()` with enough fuel for the whole stream. -/
def splitWS (s : List Nat) : List (List Nat) := splitWSGo (s.length + 1) s

/-- Row-reading loop of `from_pbm`: `height` rows of `row_bytes` bytes each,
bit `x` of a row read as `(byte[x // 8] >> (7 - x % 8)) & 1`; a short read
hits Python's `IndexError`, modelled as an error. -/
def readRows (width row_bytes : Nat) : Nat → List Nat → Except Unit (List Nat)
  | 0, _ => .ok []
  | h + 1, stream =>
    let row_data := stream.take row_bytes
    if width ≠ 0 ∧ row_data.length < (width - 1) / 8 + 1 then .error ()
    else
      match readRows width row_bytes h (stream.drop row_bytes) with
      | .ok rest => .ok ((List.range width).map
          (fun x => (row_data.getD (x / 8) 0 >>> (7 - x % 8)) &&& 1) ++ rest)
      | .error e => .error e

/-- `Bitmap.to_pbm`: the byte stream written to the file — header
`P4\n{width} {height}\n` then `ceil(width/8)` packed bytes per row. -/
def to_pbm (b : Bitmap) : List Nat :=
  80 :: 52 :: 10 :: (natToDecimal b.width ++ 32 ::
    (natToDecimal b.height ++ 10 ::
      ((List.range b.height).map
        (fun y => packRow ((b.data.drop (y * b.width)).take b.width))).flatten))

/-- `Bitmap.from_pbm`: check the `P4` magic, skip `#` comments, read width
and height (possibly split over two lines), then the packed rows. -/
def from_pbm (file : List Nat) : Except Unit Bitmap :=
  let mr := readline file
  if bstrip mr.1 ≠ [80, 52] then .error ()
  else
    let lr := skipComments mr.2
    let wh0 := splitWS lr.1
    let whr :=
      if wh0.length ≠ 2 then
        let lr2 := readline lr.2
        (wh0 ++ splitWS lr2.1, lr2.2)
      else (wh0, lr.2)
    match whr.1 with
    | [wtok, htok] =>
      match parseDecimal wtok, parseDecimal htok with
      | .ok width, .ok height =>
        match readRows width ((width + 7) / 8) height whr.2 with
        | .ok data => .ok ⟨width, height, data⟩
        | .error e => .error e
      | _, _ => .error ()
    | _ => .error ()

theorem readline_pre (pre rest : List Nat) (h : ∀ b ∈ pre, b ≠ 10) :
    readline (pre ++ 10 :: rest) = (pre ++ [10], rest) := by
  have hsplit := takeWhile_append_stop (fun b => b ≠ 10) pre 10 rest
    (by intro b hb; simpa using h b hb) (by decide)
  rw [readline]
  rw [hsplit.1, hsplit.2]

theorem skipComments_no_comment (pre rest : List Nat) (hne : pre ≠ [])
    (h10 : ∀ b ∈ pre, b ≠ 10) (h35 : pre.headD 0 ≠ 35) :
    skipComments (pre ++ 10 :: rest) = (pre ++ [10], rest) := by
  rw [skipComments]
  show skipCommentsGo ((pre ++ 10 :: rest).length + 1) (pre ++ 10 :: rest) = _
  rw [skipCommentsGo]
  rw [readline_pre pre rest h10]
  have hhead : (pre ++ [10]).headD 0 = pre.headD 0 := by
    cases pre with
    | nil => exact absurd rfl hne
    | cons a l => rfl
  rw [if_neg (by rw [hhead]; exact h35)]

theorem splitWSGo_cons_ws (fuel : Nat) (c : Nat) (rest : List Nat)
    (hc : isWSByte c = true) :
    splitWSGo (fuel + 1) (c :: rest) = splitWSGo (fuel + 1) rest := by
  rw [splitWSGo, splitWSGo]
  have : (c :: rest).dropWhile isWSByte = rest.dropWhile isWSByte := by
    simp [List.dropWhile, hc]
  rw [this]

theorem splitWSGo_step (fuel : Nat) (t : List Nat) (c : Nat) (rest : List Nat)
    (ht : t ≠ []) (hw : ∀ b ∈ t, isWSByte b = false) (hc : isWSByte c = true) :
    splitWSGo (fuel + 1) (t ++ c :: rest) = t :: splitWSGo fuel (c :: rest) := by
  obtain ⟨a, t', rfl⟩ := List.exists_cons_of_ne_nil ht
  rw [splitWSGo]
  have hdrop : ((a :: t') ++ c :: rest).dropWhile isWSByte = (a :: t') ++ c :: rest := by
    simp [List.dropWhile, hw a (by simp)]
  rw [hdrop]
  have hsplit := takeWhile_append_stop (fun b => !(isWSByte b)) (a :: t') c rest
    (by intro b hb; simp [hw b hb]) (by simp [hc])
  rw [if_neg (by simp), hsplit.1, hsplit.2]

theorem splitWSGo_ws_only (fuel : Nat) (s : List Nat)
    (h : ∀ b ∈ s, isWSByte b = true) (hf : 0 < fuel) : splitWSGo fuel s = [] := by
  cases fuel with
  | zero => omega
  | succ fuel =>
    rw [splitWSGo]
    have hdrop : s.dropWhile isWSByte = [] := (takeWhile_all_true isWSByte s h).2
    rw [hdrop]
    simp

theorem splitWS_pair (t1 t2 : List Nat) (h1 : t1 ≠ []) (h2 : t2 ≠ [])
    (hw1 : ∀ b ∈ t1, isWSByte b = false) (hw2 : ∀ b ∈ t2, isWSByte b = false) :
    splitWS (t1 ++ 32 :: (t2 ++ [10])) = [t1, t2] := by
  rw [splitWS]
  rw [splitWSGo_step _ t1 32 (t2 ++ [10]) h1 hw1 (by decide)]
  have hlen : (t1 ++ 32 :: (t2 ++ [10])).length = (t1.length + (t2.length + 1)) + 1 := by
    simp
    omega
  rw [hlen]
  rw [splitWSGo_cons_ws _ 32 (t2 ++ [10]) (by decide)]
  have hlen2 : t1.length + (t2.length + 1) = (t1.length + t2.length) + 1 := by omega
  rw [hlen2]
  rw [splitWSGo_step _ t2 10 [] h2 hw2 (by decide)]
  rw [splitWSGo_ws_only _ [10] (by intro b hb; simp at hb; rw [hb]; rfl) (by omega)]

theorem packRow_length (row : List Nat) :
    (packRow row).length = (row.length + 7) / 8 := by
  rw [packRow_eq_packBytes]
  simp [packBytes]

/-- Reading back the rows written by `to_pbm` restores the raster data. -/
theorem readRows_write (w : Nat) :
    ∀ (h : Nat) (data : List Nat), data.length = h * w → (∀ e ∈ data, e ≤ 1) →
    readRows w ((w + 7) / 8) h
      (((List.range h).map (fun y => packRow ((data.drop (y * w)).take w))).flatten) =
      .ok data := by
  intro h
  induction h with
  | zero =>
    intro data hlen _
    have : data = [] := List.eq_nil_of_length_eq_zero (by omega)
    subst this
    rfl
  | succ h ih =>
    intro data hlen hbits
    have hrow0 : (data.drop (0 * w)).take w = data.take w := by simp
    have hshift : (List.range (h + 1)).map
        (fun y => packRow ((data.drop (y * w)).take w)) =
        packRow (data.take w) :: (List.range h).map
          (fun y => packRow (((data.drop w).drop (y * w)).take w)) := by
      rw [List.range_succ_eq_map, List.map_cons, List.map_map]
      congr 1
      · rw [hrow0]
      · apply List.map_congr_left
        intro y _
        simp only [Function.comp_apply]
        rw [List.drop_drop]
        congr 3
        rw [Nat.succ_mul]
        omega
    rw [hshift, List.flatten_cons]
    have hwle : w ≤ data.length := by
      rw [hlen, Nat.succ_mul]
      omega
    have hrowlen : (data.take w).length = w := by
      rw [List.length_take]
      omega
    have hpacklen : (packRow (data.take w)).length = (w + 7) / 8 := by
      rw [packRow_length, hrowlen]
    rw [readRows]
    have htake : ((packRow (data.take w) ++
        ((List.range h).map (fun y => packRow (((data.drop w).drop (y * w)).take w))).flatten).take
          ((w + 7) / 8)) = packRow (data.take w) := by
      rw [← hpacklen, List.take_left]
    have hdrop : ((packRow (data.take w) ++
        ((List.range h).map (fun y => packRow (((data.drop w).drop (y * w)).take w))).flatten).drop
          ((w + 7) / 8)) =
        ((List.range h).map (fun y => packRow (((data.drop w).drop (y * w)).take w))).flatten := by
      rw [← hpacklen, List.drop_left]
    simp only [htake, hdrop]
    rw [if_neg (by
      rw [hpacklen]
      intro hcon
      omega)]
    have hdroplen : (data.drop w).length = h * w := by
      rw [List.length_drop, hlen, Nat.succ_mul]
      omega
    have hrec := ih (data.drop w) hdroplen
      (fun e he => hbits e (List.mem_of_mem_drop he))
    have hbit : ∀ x, x < w →
        ((packRow (data.take w)).getD (x / 8) 0 >>> (7 - x % 8)) &&& 1 =
          (data.take w).getD x 0 := by
      intro x hx
      rw [packRow_eq_packBytes]
      rw [packBytes_extract (data.take w) x (by rw [hrowlen]; exact hx)]
      have hmem : (data.take w).getD x 0 ≤ 1 := by
        rcases Nat.lt_or_ge x (data.take w).length with hlt | hge
        · rw [List.getD_eq_getElem _ 0 hlt]
          exact hbits _ (List.mem_of_mem_take (List.getElem_mem hlt))
        · rw [List.getD_eq_getElem?_getD, List.getElem?_eq_none (by omega)]
          simp
      rw [Nat.and_one_is_mod]
      omega
    have hmap : (List.range w).map
        (fun x => ((packRow (data.take w)).getD (x / 8) 0 >>> (7 - x % 8)) &&& 1) =
        (List.range w).map (fun x => (data.take w).getD x 0) := by
      apply List.map_congr_left
      intro x hx
      exact hbit x (by simpa using hx)
    rw [hrec]
    show Except.ok ((List.range w).map
      (fun x => ((packRow (data.take w)).getD (x / 8) 0 >>> (7 - x % 8)) &&& 1) ++
        data.drop w) = Except.ok data
    rw [hmap]
    congr 1
    apply List.ext_getElem
    · simp only [List.length_append, List.length_map, List.length_range,
        List.length_drop, hlen]
      have : w ≤ data.length := by rw [hlen]; omega
      omega
    · intro i hi1 hi2
      by_cases hiw : i < w
      · rw [List.getElem_append_left (by simpa using hiw)]
        rw [List.getElem_map, List.getElem_range]
        rw [List.getD_eq_getElem _ 0 (by rw [hrowlen]; exact hiw)]
        rw [List.getElem_take]
      · push_neg at hiw
        rw [List.getElem_append_right (by simpa using hiw)]
        simp only [List.length_map, List.length_range]
        rw [List.getElem_drop]
        congr 1
        omega

/-- Claim C7 (binary raster round trip): reading back a written PBM stream
reproduces the raster exactly, including the 0×0 raster; the writer packs
each row MSB-first into `ceil(width/8)` bytes with the final partial byte
zero-padded low, and the reader reads bit `x` of a row as
`(byte[x/8] >> (7 - x%8)) & 1`. -/
theorem C7_pbm_round_trip (b : Bitmap)
    (hlen : b.data.length = b.width * b.height)
    (hbits : ∀ e ∈ b.data, e ≤ 1) :
    from_pbm (to_pbm b) = .ok b := by
  have hWne := natToDecimal_ne_nil b.width
  have hHne := natToDecimal_ne_nil b.height
  have hWd : ∀ x ∈ natToDecimal b.width, 48 ≤ x ∧ x ≤ 57 := mem_natToDecimal b.width
  have hHd : ∀ x ∈ natToDecimal b.height, 48 ≤ x ∧ x ≤ 57 := mem_natToDecimal b.height
  have hto : to_pbm b = [80, 52] ++ 10 :: (natToDecimal b.width ++ 32 ::
      (natToDecimal b.height ++ 10 ::
        ((List.range b.height).map
          (fun y => packRow ((b.data.drop (y * b.width)).take b.width))).flatten)) := rfl
  have hread1 : readline (to_pbm b) = ([80, 52] ++ [10], natToDecimal b.width ++ 32 ::
      (natToDecimal b.height ++ 10 ::
        ((List.range b.height).map
          (fun y => packRow ((b.data.drop (y * b.width)).take b.width))).flatten)) := by
    rw [hto]
    exact readline_pre [80, 52] _ (by decide)
  have hpre10 : ∀ x ∈ natToDecimal b.width ++ 32 :: natToDecimal b.height, x ≠ 10 := by
    intro x hx
    rcases List.mem_append.mp hx with hx | hx
    · have := hWd x hx; omega
    · rcases List.mem_cons.mp hx with rfl | hx
      · omega
      · have := hHd x hx; omega
  have hpre35 : (natToDecimal b.width ++ 32 :: natToDecimal b.height).headD 0 ≠ 35 := by
    obtain ⟨a, W', haW⟩ := List.exists_cons_of_ne_nil hWne
    rw [haW]
    have := hWd a (by rw [haW]; exact List.mem_cons_self _ _)
    simp only [List.cons_append, List.headD_cons]
    omega
  have hskip : skipComments (natToDecimal b.width ++ 32 ::
      (natToDecimal b.height ++ 10 ::
        ((List.range b.height).map
          (fun y => packRow ((b.data.drop (y * b.width)).take b.width))).flatten)) =
      ((natToDecimal b.width ++ 32 :: natToDecimal b.height) ++ [10],
        ((List.range b.height).map
          (fun y => packRow ((b.data.drop (y * b.width)).take b.width))).flatten) := by
    have hshape : natToDecimal b.width ++ 32 ::
        (natToDecimal b.height ++ 10 ::
          ((List.range b.height).map
            (fun y => packRow ((b.data.drop (y * b.width)).take b.width))).flatten) =
        (natToDecimal b.width ++ 32 :: natToDecimal b.height) ++ 10 ::
          ((List.range b.height).map
            (fun y => packRow ((b.data.drop (y * b.width)).take b.width))).flatten := by
      simp
    rw [hshape]
    exact skipComments_no_comment _ _ (by simp) hpre10 hpre35
  have hWws : ∀ x ∈ natToDecimal b.width, isWSByte x = false := by
    intro x hx
    have := hWd x hx
    simp only [isWSByte, Bool.decide_or, Bool.or_eq_false_iff, decide_eq_false_iff_not]
    omega
  have hHws : ∀ x ∈ natToDecimal b.height, isWSByte x = false := by
    intro x hx
    have := hHd x hx
    simp only [isWSByte, Bool.decide_or, Bool.or_eq_false_iff, decide_eq_false_iff_not]
    omega
  have hsplit : splitWS ((natToDecimal b.width ++ 32 :: natToDecimal b.height) ++ [10]) =
      [natToDecimal b.width, natToDecimal b.height] := by
    have hshape : (natToDecimal b.width ++ 32 :: natToDecimal b.height) ++ [10] =
        natToDecimal b.width ++ 32 :: (natToDecimal b.height ++ [10]) := by simp
    rw [hshape]
    exact splitWS_pair _ _ hWne hHne hWws hHws
  have hrows : readRows b.width ((b.width + 7) / 8) b.height
      (((List.range b.height).map
        (fun y => packRow ((b.data.drop (y * b.width)).take b.width))).flatten) =
      .ok b.data :=
    readRows_write b.width b.height b.data (by rw [hlen]; ring) hbits
  simp only [from_pbm, hread1, hskip, hsplit]
  rw [if_neg (by decide : ¬ bstrip ([80, 52] ++ [10]) ≠ [80, 52])]
  rw [if_neg (by simp : ¬ ([natToDecimal b.width, natToDecimal b.height]).length ≠ 2)]
  simp only [parseDecimal_natToDecimal, hrows]

/-- Witness for C7 at a 4×3 raster and at the 0×0 raster. -/
theorem C7_pbm_round_trip_witness :
    from_pbm (to_pbm ⟨4, 3, [0, 1, 0, 0, 1, 0, 1, 1, 0, 0, 1, 0]⟩) =
      .ok ⟨4, 3, [0, 1, 0, 0, 1, 0, 1, 1, 0, 0, 1, 0]⟩ ∧
    from_pbm (to_pbm ⟨0, 0, []⟩) = .ok ⟨0, 0, []⟩ :=
  ⟨C7_pbm_round_trip ⟨4, 3, [0, 1, 0, 0, 1, 0, 1, 1, 0, 0, 1, 0]⟩ (by decide) (by decide),
   C7_pbm_round_trip ⟨0, 0, []⟩ (by decide) (by decide)⟩

/-- The `Bitmap` representation invariant of the data model. -/
def rasterInvariant (b : Bitmap) : Prop :=
  b.data.length = b.width * b.height ∧ ((b.width = 0 ∨ b.height = 0) → b.data = [])

theorem readRows_ok_length (w rb : Nat) :
    ∀ (h : Nat) (stream : List Nat) (data : List Nat),
      readRows w rb h stream = .ok data → data.length = h * w := by
  intro h
  induction h with
  | zero =>
    intro stream data hok
    simp only [readRows] at hok
    cases hok
    simp
  | succ h ih =>
    intro stream data hok
    simp only [readRows] at hok
    split at hok
    · cases hok
    · split at hok
      · cases hok
        rename_i x rest heq
        have hrec := ih (stream.drop rb) rest heq
        simp only [List.length_append, List.length_map, List.length_range, hrec,
          Nat.succ_mul]
        omega
      · cases hok

theorem from_pbm_invariant (file : List Nat) (b : Bitmap)
    (h : from_pbm file = .ok b) : rasterInvariant b := by
  simp only [from_pbm] at h
  split at h
  · cases h
  · split at h
    · split at h
      · split at h
        · cases h
          rename_i x data hdata
          have hl := readRows_ok_length _ _ _ _ _ hdata
          constructor
          · simpa [Nat.mul_comm] using hl
          · intro hdeg
            simp at hdeg
            apply List.eq_nil_of_length_eq_zero
            rw [hl]
            rcases hdeg with h0 | h0 <;> simp [h0]
        · cases h
      · cases h
    · cases h

theorem from_compact_invariant (s : List Char) (b : Bitmap)
    (h : from_compact_filename s = .ok b) : rasterInvariant b := by
  unfold from_compact_filename at h
  split at h
  · cases h
  · split at h
    · cases h
    · split at h
      · split at h
        · split at h
          · cases h
            rename_i packed _ data hdata
            unfold bytes_to_bits at hdata
            split at hdata
            · cases hdata
              constructor
              · simp
              · intro hdeg
                simp at hdeg
                apply List.eq_nil_of_length_eq_zero
                simp only [List.length_map, List.length_range]
                rcases hdeg with h0 | h0 <;> simp [h0]
            · cases hdata
          · cases h
        · cases h
      · cases h

theorem panelize_invariant (tile : Bitmap) (mw mh : Nat) :
    rasterInvariant (panelize tile mw mh) := by
  by_cases hdeg : tile.width = 0 ∨ tile.height = 0
  · unfold panelize
    rw [if_pos hdeg]
    exact ⟨rfl, fun _ => rfl⟩
  · push_neg at hdeg
    rw [panelize_of_pos tile mw mh hdeg.1 hdeg.2]
    have hlens : ∀ r ∈ (List.range (pyceilDiv mh tile.height * tile.height)).map
        (fun y => (List.range (pyceilDiv mw tile.width * tile.width)).map
          (fun x => tile.data.getD ((y % tile.height) * tile.width + (x % tile.width)) 0)),
        r.length = pyceilDiv mw tile.width * tile.width := by
      intro r hr
      simp only [List.mem_map] at hr
      obtain ⟨y, _, rfl⟩ := hr
      simp
    have hflat := flatten_rows_length _ _ hlens
    constructor
    · simp only [hflat]
      simp [Nat.mul_comm]
    · intro hdeg2
      apply List.eq_nil_of_length_eq_zero
      rw [hflat]
      simp only [List.length_map, List.length_range]
      rcases hdeg2 with h0 | h0 <;> simp at h0 <;> simp [h0]

/-- Claim C9 (representation invariant): every raster produced by pattern-text
decoding, PBM reading, compact-id decoding, or panelization satisfies
`len(data) = width*height` with empty data for degenerate dimensions, and the
`set` accessor preserves the invariant. -/
theorem C9_bitmap_invariant :
    (∀ (s : List Char) (b : Bitmap), from_klayout_string s = .ok b → rasterInvariant b) ∧
    (∀ (file : List Nat) (b : Bitmap), from_pbm file = .ok b → rasterInvariant b) ∧
    (∀ (s : List Char) (b : Bitmap), from_compact_filename s = .ok b → rasterInvariant b) ∧
    (∀ (tile : Bitmap) (mw mh : Nat), rasterInvariant (panelize tile mw mh)) ∧
    (∀ (b : Bitmap) (x y v : Nat), rasterInvariant b → rasterInvariant (b.set x y v)) := by
  refine ⟨?_, from_pbm_invariant, from_compact_invariant, panelize_invariant, ?_⟩
  · intro s b h
    obtain ⟨hlen, _, hdeg⟩ := from_klayout_string_props s b h
    exact ⟨hlen, fun hd => by rw [hdeg hd]⟩
  · intro b x y v hinv
    unfold Bitmap.set rasterInvariant
    simp only [List.length_set]
    exact ⟨hinv.1, fun hd => by rw [hinv.2 hd]; simp⟩

/-- Witness for C9 at concrete inputs for each producer. -/
theorem C9_bitmap_invariant_witness :
    rasterInvariant ⟨2, 2, [0, 1, 1, 0]⟩ ∧
    rasterInvariant (panelize ⟨1, 1, [1]⟩ 3 2) ∧
    rasterInvariant (Bitmap.set ⟨2, 2, [0, 1, 1, 0]⟩ 0 0 1) := by
  refine ⟨C9_bitmap_invariant.1 ( ".*\n*.".toList ) ⟨2, 2, [0, 1, 1, 0]⟩ (by decide),
    C9_bitmap_invariant.2.2.2.1 ⟨1, 1, [1]⟩ 3 2,
    C9_bitmap_invariant.2.2.2.2 ⟨2, 2, [0, 1, 1, 0]⟩ 0 0 1 ?_⟩
  exact ⟨by decide, by intro h; rcases h with h | h <;> simp at h⟩

/-! Vector artifact parser (`svg_painter.py`). Python floats are modelled as
exact rationals; all arithmetic the claims touch is exact in floats too. -/

/-- Affine transform in Qt layout:
`map (x, y) = (m11*x + m21*y + dx, m12*x + m22*y + dy)`. -/
structure QT where
  m11 : ℚ
  m12 : ℚ
  m21 : ℚ
  m22 : ℚ
  dx : ℚ
  dy : ℚ
deriving Repr, DecidableEq

/-- The identity `QTransform()`. -/
def qid : QT := ⟨1, 0, 0, 1, 0, 0⟩

/-- `QTransform.map` on a point. -/
def qmap (t : QT) (p : ℚ × ℚ) : ℚ × ℚ :=
  (t.m11 * p.1 + t.m21 * p.2 + t.dx, t.m12 * p.1 + t.m22 * p.2 + t.dy)

/-- `QTransform.translate` (Qt source: `dx += tx*m11 + ty*m21`,
`dy += tx*m12 + ty*m22`), so the translation acts on the point first. -/
def qtranslate (t : QT) (tx ty : ℚ) : QT :=
  { t with dx := t.dx + tx * t.m11 + ty * t.m21, dy := t.dy + tx * t.m12 + ty * t.m22 }

/-- `QTransform.scale` (Qt source: `m11 *= sx; m12 *= sx; m21 *= sy;
m22 *= sy`), so the scale acts on the point first. -/
def qscale (t : QT) (sx sy : ℚ) : QT :=
  { t with m11 := t.m11 * sx, m12 := t.m12 * sx, m21 := t.m21 * sy, m22 := t.m22 * sy }

/-- Qt `QTransform` multiplication (row-vector convention): `qmul a b` maps a
point by `a` first, then by `b`. -/
def qmul (a b : QT) : QT :=
  ⟨a.m11 * b.m11 + a.m12 * b.m21,
   a.m11 * b.m12 + a.m12 * b.m22,
   a.m21 * b.m11 + a.m22 * b.m21,
   a.m21 * b.m12 + a.m22 * b.m22,
   a.dx * b.m11 + a.dy * b.m21 + b.dx,
   a.dx * b.m12 + a.dy * b.m22 + b.dy⟩

theorem qmap_qmul (a b : QT) (p : ℚ × ℚ) : qmap (qmul a b) p = qmap b (qmap a p) := by
  unfold qmap qmul
  simp only [Prod.mk.injEq]
  constructor <;> ring

theorem qmap_qid (p : ℚ × ℚ) : qmap qid p = p := by
  unfold qmap qid
  simp

/-- Digit test for the numeric literals of the grammar. -/
def isDigitChar (c : Char) : Bool := '0' ≤ c ∧ c ≤ '9'

/-- Value of a run of decimal digit characters. -/
def digitsVal10 (l : List Char) : Nat := l.foldl (fun a c => a * 10 + (c.toNat - 48)) 0

/-- Python `float()` on the decimal literals appearing in transform
arguments: optional sign, integer part, optional fraction (exponent forms are
never produced by the converter and are not modelled). -/
def parseFloat (s : List Char) : Except Unit ℚ :=
  let ns := match s with
    | '-' :: rest => ((true : Bool), rest)
    | '+' :: rest => (false, rest)
    | _ => (false, s)
  let ip := ns.2.takeWhile isDigitChar
  let sgn : ℚ := if ns.1 then -1 else 1
  match ns.2.dropWhile isDigitChar with
  | [] => if ip = [] then .error () else .ok (sgn * (digitsVal10 ip : ℚ))
  | '.' :: r2 =>
    let fp := r2.takeWhile isDigitChar
    if r2.dropWhile isDigitChar ≠ [] then .error ()
    else if ip = [] ∧ fp = [] then .error ()
    else .ok (sgn * ((digitsVal10 ip : ℚ) + (digitsVal10 fp : ℚ) / 10 ^ fp.length))
  | _ => .error ()

/-- Word characters of the `(\w+)\(([^)]*)\)` transform regex. -/
def isWordChar (c : Char) : Bool :=
  ('a' ≤ c ∧ c ≤ 'z') ∨ ('A' ≤ c ∧ c ≤ 'Z') ∨ isDigitChar c ∨ c = '_'

/-- Fuelled scan equivalent to `_transform_re.findall`: maximal word runs
immediately followed by a parenthesised argument list. -/
def findTransformCallsGo : Nat → List Char → List (List Char × List Char)
  | 0, _ => []
  | _ + 1, [] => []
  | fuel + 1, c :: rest =>
    if isWordChar c then
      match (c :: rest).dropWhile isWordChar with
      | '(' :: r2 =>
        match r2.dropWhile (fun a => a ≠ ')') with
        | ')' :: r3 =>
          ((c :: rest).takeWhile isWordChar, r2.takeWhile (fun a => a ≠ ')')) ::
            findTransformCallsGo fuel r3
        | _ => findTransformCallsGo fuel rest
      | _ => findTransformCallsGo fuel rest
    else findTransformCallsGo fuel rest

/-- `_transform_re.findall` with enough fuel for the whole string. -/
def findTransformCalls (s : List Char) : List (List Char × List Char) :=
  findTransformCallsGo (s.length + 1) s

/-- Separator class of `re.split("[ ,]+", ...)`. -/
def isArgSep (c : Char) : Bool := c = ' ' ∨ c = ','

/-- Fuelled `re.split("[ ,]+", ...)` dropping empty pieces
(the `if v` filter). -/
def splitArgsGo : Nat → List Char → List (List Char)
  | 0, _ => []
  | fuel + 1, s =>
    let s1 := s.dropWhile isArgSep
    if s1 = [] then []
    else
      s1.takeWhile (fun c => !(isArgSep c)) ::
        splitArgsGo fuel (s1.dropWhile (fun c => !(isArgSep c)))

/-- Argument splitting of `parse_svg_transform`:
`[float(v) for v in re.split(r"[ ,]+", args.strip()) if v]`. -/
def splitArgs (s : List Char) : List (List Char) :=
  splitArgsGo (s.length + 1) (pystrip s)

/-- One `name(args)` group of `parse_svg_transform`: apply `translate` or
`scale` to the accumulated transform, raise on any other name. -/
def applyTransformCall (t : QT) (name args : List Char) : Except Unit QT := do
  let values ← (splitArgs args).mapM parseFloat
  if name = ( "translate".toList ) then
    if values.length = 1 then pure (qtranslate t (values.getD 0 0) 0)
    else if 2 ≤ values.length then
      pure (qtranslate t (values.getD 0 0) (values.getD 1 0))
    else pure t
  else if name = ( "scale".toList ) then
    if values.length = 1 then pure (qscale t (values.getD 0 0) (values.getD 0 0))
    else if 2 ≤ values.length then
      pure (qscale t (values.getD 0 0) (values.getD 1 0))
    else pure t
  else throw ()

/-- `parse_svg_transform`: fold all transform groups over a fresh
`QTransform`. -/
def parse_svg_transform (s : List Char) : Except Unit QT :=
  (findTransformCalls s).foldlM (fun t nc => applyTransformCall t nc.1 nc.2) qid

/-- Tokens of the path command grammar. -/
inductive PTok where
  | cmd (c : Char)
  | num (q : ℚ)
deriving Repr, DecidableEq

/-- The eight command letters of `token_re`. -/
def isCmdChar (c : Char) : Bool :=
  c = 'M' ∨ c = 'm' ∨ c = 'L' ∨ c = 'l' ∨ c = 'C' ∨ c = 'c' ∨ c = 'Z' ∨ c = 'z'

/-- Parse `\d+(?:\.\d+)?` at the head of the string. -/
def numTokenCore (s : List Char) : Option (ℚ × List Char) :=
  let ds := s.takeWhile isDigitChar
  if ds = [] then none
  else
    match s.dropWhile isDigitChar with
    | '.' :: r2 =>
      let fs := r2.takeWhile isDigitChar
      if fs = [] then some ((digitsVal10 ds : ℚ), s.dropWhile isDigitChar)
      else some ((digitsVal10 ds : ℚ) + (digitsVal10 fs : ℚ) / 10 ^ fs.length,
        r2.dropWhile isDigitChar)
    | r => some ((digitsVal10 ds : ℚ), r)

/-- Parse `-?\d+(?:\.\d+)?` at the head of the string. -/
def numToken (s : List Char) : Option (ℚ × List Char) :=
  match s with
  | '-' :: r => (numTokenCore r).map (fun qr => (-qr.1, qr.2))
  | _ => numTokenCore s

/-- Fuelled model of `token_re.findall`: command letters and signed decimal
literals, any other character skipped. -/
def tokenizePathGo : Nat → List Char → List PTok
  | 0, _ => []
  | _ + 1, [] => []
  | fuel + 1, c :: rest =>
    if isCmdChar c then PTok.cmd c :: tokenizePathGo fuel rest
    else
      match numToken (c :: rest) with
      | some (q, r) => PTok.num q :: tokenizePathGo fuel r
      | none => tokenizePathGo fuel rest

/-- `token_re.findall` with enough fuel for the whole string. -/
def tokenizePath (s : List Char) : List PTok := tokenizePathGo (s.length + 1) s

/-- Path segments recorded on a `QPainterPath`. -/
inductive Seg where
  | moveTo (p : ℚ × ℚ)
  | lineTo (p : ℚ × ℚ)
  | cubicTo (c1 c2 e : ℚ × ℚ)
  | close
deriving Repr, DecidableEq

/-- State of the command loop: token index, active command, current point,
subpath start, and the segments recorded so far. -/
structure PState where
  i : Nat
  cmd : Option Char
  cur : ℚ × ℚ
  start : ℚ × ℚ
  segs : List Seg
deriving Repr, DecidableEq

/-- Loop state at entry: `i = 0`, `cmd = None`, both points at the origin. -/
def initPState : PState := ⟨0, none, (0, 0), (0, 0), []⟩

/-- Python `float(tokens[j])`: the value of a number token; a command letter
raises `ValueError` and an out-of-range index raises `IndexError`. -/
def numAt (tokens : List PTok) (j : Nat) : Except Unit ℚ :=
  match tokens[j]? with
  | some (.num q) => .ok q
  | some (.cmd _) => .error ()
  | none => .error ()

/-- Result of one iteration of the `while i < len(tokens)` loop. -/
inductive StepOut where
  | next (s : PState)
  | finished (s : PState)
  | err
deriving Repr, DecidableEq

/-- One iteration of the command loop of `convert_svg_to_qpainter_paths.walk`
(with no progress reporter). A command token updates `cmd` and advances `i`;
then the branch for the active command runs on the updated state. When no
branch applies (no active command, or a stray token after `Z`/`z` repeats the
close), the iteration ends without advancing `i`. -/
def pathStep (tokens : List PTok) (s : PState) : StepOut :=
  if s.i < tokens.length then
    let ci :=
      match tokens.getD s.i (.num 0) with
      | .cmd c => (some c, s.i + 1)
      | .num _ => (s.cmd, s.i)
    match ci.1 with
    | some c =>
      if c = 'M' ∨ c = 'm' then
        match numAt tokens ci.2, numAt tokens (ci.2 + 1) with
        | .ok x, .ok y =>
          let cur := if c = 'm' then (s.cur.1 + x, s.cur.2 + y) else (x, y)
          .next ⟨ci.2 + 2, some (if c = 'M' then 'L' else 'l'), cur, cur,
            s.segs ++ [.moveTo cur]⟩
        | _, _ => .err
      else if c = 'L' ∨ c = 'l' then
        match numAt tokens ci.2, numAt tokens (ci.2 + 1) with
        | .ok x, .ok y =>
          let cur := if c = 'l' then (s.cur.1 + x, s.cur.2 + y) else (x, y)
          .next ⟨ci.2 + 2, some c, cur, s.start, s.segs ++ [.lineTo cur]⟩
        | _, _ => .err
      else if c = 'C' ∨ c = 'c' then
        match numAt tokens ci.2, numAt tokens (ci.2 + 1), numAt tokens (ci.2 + 2),
          numAt tokens (ci.2 + 3), numAt tokens (ci.2 + 4), numAt tokens (ci.2 + 5) with
        | .ok x1, .ok y1, .ok x2, .ok y2, .ok x3, .ok y3 =>
          let p1 := if c = 'c' then (s.cur.1 + x1, s.cur.2 + y1) else (x1, y1)
          let p2 := if c = 'c' then (s.cur.1 + x2, s.cur.2 + y2) else (x2, y2)
          let cur := if c = 'c' then (s.cur.1 + x3, s.cur.2 + y3) else (x3, y3)
          .next ⟨ci.2 + 6, some c, cur, s.start, s.segs ++ [.cubicTo p1 p2 cur]⟩
        | _, _, _, _, _, _ => .err
      else if c = 'Z' ∨ c = 'z' then
        .next ⟨ci.2, some c, s.start, s.start, s.segs ++ [.close]⟩
      else .next ⟨ci.2, some c, s.cur, s.start, s.segs⟩
    | none => .next ⟨ci.2, none, s.cur, s.start, s.segs⟩
  else .finished s

/-- Outcome of running the command loop on bounded fuel. -/
inductive RunOut where
  | ok (s : PState)
  | err
  | fuelOut
deriving Repr, DecidableEq

/-- Run the command loop; `fuelOut` means the fuel was exhausted while the
loop was still running. -/
def runPath (tokens : List PTok) : Nat → PState → RunOut
  | 0, _ => .fuelOut
  | fuel + 1, s =>
    match pathStep tokens s with
    | .finished s2 => .ok s2
    | .err => .err
    | .next s2 => runPath tokens fuel s2

/-- The command loop on a `d` attribute value. For terminating runs,
`tokens.length + 1` fuel always suffices because every productive iteration
consumes at least one token. -/
def parsePathD (d : List Char) : Except Unit (List Seg) :=
  match runPath (tokenizePath d) ((tokenizePath d).length + 1) initPState with
  | .ok s => .ok s.segs
  | _ => .error ()

/-- Apply a transform to every point recorded in a segment
(`QTransform.map` on a `QPainterPath`). -/
def mapSeg (t : QT) : Seg → Seg
  | .moveTo p => .moveTo (qmap t p)
  | .lineTo p => .lineTo (qmap t p)
  | .cubicTo c1 c2 e => .cubicTo (qmap t c1) (qmap t c2) (qmap t e)
  | .close => .close

/-- `local_transform.map(path)` on a whole path. -/
def mapPath (t : QT) (segs : List Seg) : List Seg := segs.map (mapSeg t)

/-- Element-tree node as `convert_svg_to_qpainter_paths.walk` sees it: the
tag, the optional non-empty `transform` attribute, the optional `d`
attribute, and the children. -/
inductive SvgNode where
  | mk (tag : List Char) (transformAttr : Option (List Char))
       (dAttr : Option (List Char)) (children : List SvgNode)

/-- Tag of a node. -/
def SvgNode.tag : SvgNode → List Char
  | .mk t _ _ _ => t

/-- Optional `transform` attribute of a node. -/
def SvgNode.transformAttr : SvgNode → Option (List Char)
  | .mk _ a _ _ => a

/-- Optional `d` attribute of a node. -/
def SvgNode.dAttr : SvgNode → Option (List Char)
  | .mk _ _ d _ => d

/-- Children of a node. -/
def SvgNode.children : SvgNode → List SvgNode
  | .mk _ _ _ c => c

/-- The `local_transform` used at a node: the incoming transform, multiplied
on the right (Qt `transform * local`) by the node's parsed transform when the
attribute is present and non-empty (Python truthiness of the string). -/
def composedTransform (t : QT) (node : SvgNode) : Except Unit QT :=
  match node.transformAttr with
  | some a =>
    if a = [] then .ok t
    else
      match parse_svg_transform a with
      | .ok l => .ok (qmul t l)
      | .error e => .error e
  | none => .ok t

mutual

/-- `convert_svg_to_qpainter_paths.walk`: depth-first, pre-order; a
path-tagged node contributes its parsed path mapped by the composed
transform, then the children are walked under that transform. -/
def walkNode : SvgNode → QT → Except Unit (List (List Seg))
  | .mk tag ta da kids, t =>
    match composedTransform t (.mk tag ta da kids) with
    | .error e => .error e
    | .ok lt =>
      if List.isSuffixOf ( "path".toList ) tag then
        match parsePathD (da.getD []) with
        | .ok segs =>
          match walkKids kids lt with
          | .ok rest => .ok (mapPath lt segs :: rest)
          | .error e => .error e
        | .error e => .error e
      else
        match walkKids kids lt with
        | .ok rest => .ok rest
        | .error e => .error e

/-- Walk a child list in order under a fixed transform. -/
def walkKids : List SvgNode → QT → Except Unit (List (List Seg))
  | [], _ => .ok []
  | n :: rest, t =>
    match walkNode n t with
    | .ok own => match walkKids rest t with
      | .ok more => .ok (own ++ more)
      | .error e => .error e
    | .error e => .error e

end

/-- `convert_svg_to_qpainter_paths` on an already-parsed tree with no
progress reporter: walk from the root under the identity transform. -/
def convert_svg_to_qpainter_paths (root : SvgNode) : Except Unit (List (List Seg)) :=
  walkNode root qid

theorem getElem?_lt {tokens : List PTok} {j : Nat} {t : PTok}
    (h : tokens[j]? = some t) : j < tokens.length := by
  by_contra hge
  rw [List.getElem?_eq_none (Nat.le_of_not_lt hge)] at h
  exact Option.noConfusion h

theorem getD_of_some {tokens : List PTok} {j : Nat} {t d : PTok}
    (h : tokens[j]? = some t) : tokens.getD j d = t := by
  rw [List.getD_eq_getElem?_getD, h, Option.getD_some]

theorem numAt_of_some {tokens : List PTok} {j : Nat} {q : ℚ}
    (h : tokens[j]? = some (.num q)) : numAt tokens j = .ok q := by
  simp [numAt, h]

theorem numAt_ok {tokens : List PTok} {j : Nat} {q : ℚ}
    (h : numAt tokens j = .ok q) : tokens[j]? = some (.num q) := by
  unfold numAt at h
  split at h
  · rename_i q' heq
    cases h
    exact heq
  · exact Except.noConfusion h
  · exact Except.noConfusion h

theorem pathStep_cmd_M (tokens : List PTok) (s : PState) (x y : ℚ)
    (hM : tokens[s.i]? = some (.cmd 'M'))
    (hx : tokens[s.i + 1]? = some (.num x))
    (hy : tokens[s.i + 2]? = some (.num y)) :
    pathStep tokens s
      = .next ⟨s.i + 3, some 'L', (x, y), (x, y), s.segs ++ [.moveTo (x, y)]⟩ := by
  have hlt := getElem?_lt hM
  have hgd := getD_of_some (d := .num 0) hM
  have hy' : tokens[s.i + 1 + 1]? = some (.num y) := hy
  simp only [pathStep, if_pos hlt, hgd]
  simp [numAt, hx, hy']

theorem pathStep_cmd_m (tokens : List PTok) (s : PState) (x y : ℚ)
    (hm : tokens[s.i]? = some (.cmd 'm'))
    (hx : tokens[s.i + 1]? = some (.num x))
    (hy : tokens[s.i + 2]? = some (.num y)) :
    pathStep tokens s
      = .next ⟨s.i + 3, some 'l', (s.cur.1 + x, s.cur.2 + y), (s.cur.1 + x, s.cur.2 + y),
          s.segs ++ [.moveTo (s.cur.1 + x, s.cur.2 + y)]⟩ := by
  have hlt := getElem?_lt hm
  have hgd := getD_of_some (d := .num 0) hm
  have hy' : tokens[s.i + 1 + 1]? = some (.num y) := hy
  simp only [pathStep, if_pos hlt, hgd]
  simp [numAt, hx, hy']

theorem pathStep_num_L (tokens : List PTok) (s : PState) (x y : ℚ)
    (hcmd : s.cmd = some 'L')
    (hx : tokens[s.i]? = some (.num x))
    (hy : tokens[s.i + 1]? = some (.num y)) :
    pathStep tokens s
      = .next ⟨s.i + 2, some 'L', (x, y), s.start, s.segs ++ [.lineTo (x, y)]⟩ := by
  have hlt := getElem?_lt hx
  have hgd := getD_of_some (d := .num 0) hx
  simp only [pathStep, if_pos hlt, hgd, hcmd]
  simp [numAt, hx, hy]

theorem pathStep_num_l (tokens : List PTok) (s : PState) (x y : ℚ)
    (hcmd : s.cmd = some 'l')
    (hx : tokens[s.i]? = some (.num x))
    (hy : tokens[s.i + 1]? = some (.num y)) :
    pathStep tokens s
      = .next ⟨s.i + 2, some 'l', (s.cur.1 + x, s.cur.2 + y), s.start,
          s.segs ++ [.lineTo (s.cur.1 + x, s.cur.2 + y)]⟩ := by
  have hlt := getElem?_lt hx
  have hgd := getD_of_some (d := .num 0) hx
  simp only [pathStep, if_pos hlt, hgd, hcmd]
  simp [numAt, hx, hy]

/-- C5: parsing the command string "M 0 0 L 10 0 Z" yields exactly
[MoveTo(0,0), LineTo(10,0), Close] (under the identity transform the mapped
path is the same list); and the implicit-repeat rule holds: a command token
`M` (resp. `m`) consumes its coordinate pair and leaves `L` (resp. `l`) as
the active command, and a bare coordinate pair under active command `L`
(resp. `l`) emits the corresponding absolute (resp. relative) line segment
keeping the command active. -/
theorem C5_path_command_semantics :
    (parsePathD ( "M 0 0 L 10 0 Z".toList )
        = .ok [.moveTo (0, 0), .lineTo (10, 0), .close]
      ∧ mapPath qid [.moveTo (0, 0), .lineTo (10, 0), .close]
          = [.moveTo (0, 0), .lineTo (10, 0), .close])
    ∧ (∀ (tokens : List PTok) (s : PState) (x y : ℚ),
        tokens[s.i]? = some (.cmd 'M') → tokens[s.i + 1]? = some (.num x) →
        tokens[s.i + 2]? = some (.num y) →
        pathStep tokens s
          = .next ⟨s.i + 3, some 'L', (x, y), (x, y), s.segs ++ [.moveTo (x, y)]⟩)
    ∧ (∀ (tokens : List PTok) (s : PState) (x y : ℚ),
        tokens[s.i]? = some (.cmd 'm') → tokens[s.i + 1]? = some (.num x) →
        tokens[s.i + 2]? = some (.num y) →
        pathStep tokens s
          = .next ⟨s.i + 3, some 'l', (s.cur.1 + x, s.cur.2 + y),
              (s.cur.1 + x, s.cur.2 + y), s.segs ++ [.moveTo (s.cur.1 + x, s.cur.2 + y)]⟩)
    ∧ (∀ (tokens : List PTok) (s : PState) (x y : ℚ),
        s.cmd = some 'L' →
        tokens[s.i]? = some (.num x) → tokens[s.i + 1]? = some (.num y) →
        pathStep tokens s
          = .next ⟨s.i + 2, some 'L', (x, y), s.start, s.segs ++ [.lineTo (x, y)]⟩)
    ∧ (∀ (tokens : List PTok) (s : PState) (x y : ℚ),
        s.cmd = some 'l' →
        tokens[s.i]? = some (.num x) → tokens[s.i + 1]? = some (.num y) →
        pathStep tokens s
          = .next ⟨s.i + 2, some 'l', (s.cur.1 + x, s.cur.2 + y), s.start,
              s.segs ++ [.lineTo (s.cur.1 + x, s.cur.2 + y)]⟩) :=
  ⟨⟨by with_unfolding_all rfl, by with_unfolding_all rfl⟩,
   pathStep_cmd_M, pathStep_cmd_m, pathStep_num_L, pathStep_num_l⟩

theorem C5_path_command_semantics_witness :
    pathStep [PTok.cmd 'M', PTok.num 4, PTok.num 5] ⟨0, none, (0, 0), (0, 0), []⟩
      = .next ⟨3, some 'L', (4, 5), (4, 5), [Seg.moveTo (4, 5)]⟩ := by
  have h := C5_path_command_semantics.2.1 [PTok.cmd 'M', PTok.num 4, PTok.num 5]
    ⟨0, none, (0, 0), (0, 0), []⟩ 4 5 rfl rfl rfl
  simpa using h

/-- A group with `translate(10,20)` wrapping a path node that carries its own
`transform="scale(2)"` and `d="M 1 1"`. -/
def c4Tree : SvgNode :=
  .mk ( "svg".toList ) none none
    [.mk ( "g".toList ) (some ( "translate(10,20)".toList )) none
      [.mk ( "path".toList ) (some ( "scale(2)".toList )) (some ( "M 1 1".toList )) []]]

/-- C4, counterexample: the converter produces world point (22,42) for the
tree where the claimed composition — local transform applied to the point
first, then the parent's — would give (12,22); the two points differ. The
code computes `transform * local`, which in Qt's row-vector convention
applies the parent transform to the point first. -/
theorem C4_transform_order_counterexample :
    convert_svg_to_qpainter_paths c4Tree = .ok [[Seg.moveTo (22, 42)]]
    ∧ qmap (qtranslate qid 10 20) (qmap (qscale qid 2 2) ((1 : ℚ), (1 : ℚ))) = (12, 22)
    ∧ ((22 : ℚ), (42 : ℚ)) ≠ ((12 : ℚ), (22 : ℚ)) := by
  refine ⟨by with_unfolding_all rfl, by with_unfolding_all rfl, ?_⟩
  intro h
  have h1 : (22 : ℚ) = 12 := congrArg Prod.fst h
  norm_num at h1

/-- A group with `translate(10,20)` wrapping the plain path "M 0 0 L 5 5". -/
def c4AmendedTree : SvgNode :=
  .mk ( "svg".toList ) none none
    [.mk ( "g".toList ) (some ( "translate(10,20)".toList )) none
      [.mk ( "path".toList ) none (some ( "M 0 0 L 5 5".toList )) []]]

/-- C4, amended: the composed transform at a node is the Qt product
`parent * local`, which applies the PARENT transform to the point first and
the node's local transform second; the local transform defaults to the
identity when the `transform` attribute is absent or empty. The concrete
scenario of the claim — `translate(10,20)` wrapping "M 0 0 L 5 5" — still
yields (10,20) and (15,25), because translations commute. -/
theorem C4_transform_composition :
    (∀ (t : QT) (tag ta : List Char) (da : Option (List Char))
        (kids : List SvgNode) (l : QT),
        ta ≠ [] → parse_svg_transform ta = .ok l →
        composedTransform t (.mk tag (some ta) da kids) = .ok (qmul t l)
          ∧ ∀ p, qmap (qmul t l) p = qmap l (qmap t p))
    ∧ (∀ (t : QT) (tag : List Char) (da : Option (List Char)) (kids : List SvgNode),
        composedTransform t (.mk tag none da kids) = .ok t)
    ∧ (∀ (t : QT) (tag : List Char) (da : Option (List Char)) (kids : List SvgNode),
        composedTransform t (.mk tag (some []) da kids) = .ok t)
    ∧ convert_svg_to_qpainter_paths c4AmendedTree
        = .ok [[Seg.moveTo (10, 20), Seg.lineTo (15, 25)]] := by
  refine ⟨?_, ?_, ?_, by with_unfolding_all rfl⟩
  · intro t tag ta da kids l hne hok
    refine ⟨?_, fun p => qmap_qmul t l p⟩
    simp [composedTransform, SvgNode.transformAttr, hne, hok]
  · intro t tag da kids
    simp [composedTransform, SvgNode.transformAttr]
  · intro t tag da kids
    simp [composedTransform, SvgNode.transformAttr]

theorem C4_transform_composition_witness :
    composedTransform qid (.mk ( "g".toList ) (some ( "scale(2)".toList )) none [])
        = .ok (qmul qid ⟨2, 0, 0, 2, 0, 0⟩)
    ∧ qmap (qmul qid ⟨2, 0, 0, 2, 0, 0⟩) (3, 4)
        = qmap (⟨2, 0, 0, 2, 0, 0⟩ : QT) (qmap qid (3, 4)) := by
  have h := C4_transform_composition.1 qid ( "g".toList ) ( "scale(2)".toList ) none []
    ⟨2, 0, 0, 2, 0, 0⟩ (by decide) (by with_unfolding_all rfl)
  exact ⟨h.1, h.2 (3, 4)⟩

/-- The command loop of `convert_svg_to_qpainter_paths.walk` terminates on
input `d` when some fuel completes the run. -/
def parserTerminates (d : List Char) : Prop :=
  ∃ fuel, runPath (tokenizePath d) fuel initPState ≠ .fuelOut

theorem runPath_stuck (tokens : List PTok) (s : PState)
    (h : pathStep tokens s = .next s) : ∀ fuel, runPath tokens fuel s = .fuelOut := by
  intro fuel
  induction fuel with
  | zero => rfl
  | succ n ih => simp [runPath, h, ih]

/-- Command evolution on a command token: `M` continues as `L`, `m` as `l`. -/
def scanCmd (c : Char) : Char :=
  if c = 'M' then 'L' else if c = 'm' then 'l' else c

/-- Guard scan: every numeric token must be governed by a preceding command
letter whose continuation is not `Z`/`z`. -/
def numGuardedGo : Option Char → List PTok → Bool
  | _, [] => true
  | _, .cmd c :: rest => numGuardedGo (some (scanCmd c)) rest
  | none, .num _ :: _ => false
  | some c, .num _ :: rest =>
    if c = 'Z' ∨ c = 'z' then false else numGuardedGo (some c) rest

/-- A token stream is number-guarded when the scan accepts it starting with
no active command. -/
def numGuarded (tokens : List PTok) : Bool := numGuardedGo none tokens

/-- Commands the loop can hold after any iteration on tokenized input. -/
def cmdOK : Option Char → Prop
  | none => True
  | some c => c = 'L' ∨ c = 'l' ∨ c = 'C' ∨ c = 'c' ∨ c = 'Z' ∨ c = 'z'

theorem drop_cons_of_some {tokens : List PTok} {j : Nat} {t : PTok}
    (h : tokens[j]? = some t) : tokens.drop j = t :: tokens.drop (j + 1) := by
  have hj := getElem?_lt h
  rw [List.drop_eq_getElem_cons hj]
  congr 1
  exact (List.getElem?_eq_some.mp h).2

theorem guard_consume_num {tokens : List PTok} {c : Char} {j : Nat} {q : ℚ}
    (hz : ¬(c = 'Z' ∨ c = 'z')) (ht : tokens[j]? = some (.num q))
    (hg : numGuardedGo (some c) (tokens.drop j) = true) :
    numGuardedGo (some c) (tokens.drop (j + 1)) = true := by
  rw [drop_cons_of_some ht] at hg
  simpa [numGuardedGo, if_neg hz] using hg

theorem pathStep_progress (tokens : List PTok) (s : PState)
    (hOK : ∀ (i : Nat) (c : Char), tokens[i]? = some (.cmd c) → isCmdChar c = true)
    (hc : cmdOK s.cmd)
    (hg : numGuardedGo s.cmd (tokens.drop s.i) = true) :
    pathStep tokens s = .finished s ∨ pathStep tokens s = .err ∨
      ∃ s2, pathStep tokens s = .next s2 ∧ s.i < s2.i ∧ cmdOK s2.cmd ∧
        numGuardedGo s2.cmd (tokens.drop s2.i) = true := by
  by_cases hlt : s.i < tokens.length
  case neg =>
    left
    simp [pathStep, hlt]
  case pos =>
  obtain ⟨t, ht⟩ : ∃ t, tokens[s.i]? = some t := ⟨tokens[s.i], List.getElem?_eq_getElem hlt⟩
  have hgd := getD_of_some (d := .num 0) ht
  rw [drop_cons_of_some ht] at hg
  match t, ht, hgd with
  | .cmd c, ht, hgd =>
    have hcc := hOK s.i c ht
    simp [isCmdChar] at hcc
    rcases hcc with rfl | rfl | rfl | rfl | rfl | rfl | rfl | rfl
    · simp only [numGuardedGo, scanCmd, Char.reduceEq, true_or, or_true, false_or,
        or_false, reduceIte] at hg
      simp only [pathStep, if_pos hlt, hgd, Char.reduceEq, true_or, or_true, false_or,
        or_false, reduceIte]
      split
      · rename_i x y hx hy
        have hg1 := guard_consume_num (by decide) (numAt_ok hx) hg
        have hg2 := guard_consume_num (by decide) (numAt_ok hy) hg1
        right; right
        exact ⟨_, rfl, by show s.i < s.i + 1 + 2; omega, by simp [cmdOK], hg2⟩
      · right; left; rfl
    · simp only [numGuardedGo, scanCmd, Char.reduceEq, true_or, or_true, false_or,
        or_false, reduceIte] at hg
      simp only [pathStep, if_pos hlt, hgd, Char.reduceEq, true_or, or_true, false_or,
        or_false, reduceIte]
      split
      · rename_i x y hx hy
        have hg1 := guard_consume_num (by decide) (numAt_ok hx) hg
        have hg2 := guard_consume_num (by decide) (numAt_ok hy) hg1
        right; right
        exact ⟨_, rfl, by show s.i < s.i + 1 + 2; omega, by simp [cmdOK], hg2⟩
      · right; left; rfl
    · simp only [numGuardedGo, scanCmd, Char.reduceEq, true_or, or_true, false_or,
        or_false, reduceIte] at hg
      simp only [pathStep, if_pos hlt, hgd, Char.reduceEq, true_or, or_true, false_or,
        or_false, reduceIte]
      split
      · rename_i x y hx hy
        have hg1 := guard_consume_num (by decide) (numAt_ok hx) hg
        have hg2 := guard_consume_num (by decide) (numAt_ok hy) hg1
        right; right
        exact ⟨_, rfl, by show s.i < s.i + 1 + 2; omega, by simp [cmdOK], hg2⟩
      · right; left; rfl
    · simp only [numGuardedGo, scanCmd, Char.reduceEq, true_or, or_true, false_or,
        or_false, reduceIte] at hg
      simp only [pathStep, if_pos hlt, hgd, Char.reduceEq, true_or, or_true, false_or,
        or_false, reduceIte]
      split
      · rename_i x y hx hy
        have hg1 := guard_consume_num (by decide) (numAt_ok hx) hg
        have hg2 := guard_consume_num (by decide) (numAt_ok hy) hg1
        right; right
        exact ⟨_, rfl, by show s.i < s.i + 1 + 2; omega, by simp [cmdOK], hg2⟩
      · right; left; rfl
    · simp only [numGuardedGo, scanCmd, Char.reduceEq, true_or, or_true, false_or,
        or_false, reduceIte] at hg
      simp only [pathStep, if_pos hlt, hgd, Char.reduceEq, true_or, or_true, false_or,
        or_false, reduceIte]
      split
      · rename_i x1 y1 x2 y2 x3 y3 hx1 hy1 hx2 hy2 hx3 hy3
        have hg1 := guard_consume_num (by decide) (numAt_ok hx1) hg
        have hg2 := guard_consume_num (by decide) (numAt_ok hy1) hg1
        have hg3 := guard_consume_num (by decide) (numAt_ok hx2) hg2
        have hg4 := guard_consume_num (by decide) (numAt_ok hy2) hg3
        have hg5 := guard_consume_num (by decide) (numAt_ok hx3) hg4
        have hg6 := guard_consume_num (by decide) (numAt_ok hy3) hg5
        right; right
        refine ⟨_, rfl, by show s.i < s.i + 1 + 6; omega, by simp [cmdOK], ?_⟩
        exact hg6
      · right; left; rfl
    · simp only [numGuardedGo, scanCmd, Char.reduceEq, true_or, or_true, false_or,
        or_false, reduceIte] at hg
      simp only [pathStep, if_pos hlt, hgd, Char.reduceEq, true_or, or_true, false_or,
        or_false, reduceIte]
      split
      · rename_i x1 y1 x2 y2 x3 y3 hx1 hy1 hx2 hy2 hx3 hy3
        have hg1 := guard_consume_num (by decide) (numAt_ok hx1) hg
        have hg2 := guard_consume_num (by decide) (numAt_ok hy1) hg1
        have hg3 := guard_consume_num (by decide) (numAt_ok hx2) hg2
        have hg4 := guard_consume_num (by decide) (numAt_ok hy2) hg3
        have hg5 := guard_consume_num (by decide) (numAt_ok hx3) hg4
        have hg6 := guard_consume_num (by decide) (numAt_ok hy3) hg5
        right; right
        refine ⟨_, rfl, by show s.i < s.i + 1 + 6; omega, by simp [cmdOK], ?_⟩
        exact hg6
      · right; left; rfl
    · simp only [numGuardedGo, scanCmd, Char.reduceEq, true_or, or_true, false_or,
        or_false, reduceIte] at hg
      simp only [pathStep, if_pos hlt, hgd, Char.reduceEq, true_or, or_true, false_or,
        or_false, reduceIte]
      right; right
      exact ⟨_, rfl, by show s.i < s.i + 1; omega, by simp [cmdOK], hg⟩
    · simp only [numGuardedGo, scanCmd, Char.reduceEq, true_or, or_true, false_or,
        or_false, reduceIte] at hg
      simp only [pathStep, if_pos hlt, hgd, Char.reduceEq, true_or, or_true, false_or,
        or_false, reduceIte]
      right; right
      exact ⟨_, rfl, by show s.i < s.i + 1; omega, by simp [cmdOK], hg⟩
  | .num q, ht, hgd =>
    rcases hsc : s.cmd with _ | c
    · rw [hsc] at hg
      simp [numGuardedGo] at hg
    · rw [hsc] at hg hc
      simp only [numGuardedGo] at hg
      by_cases hz : c = 'Z' ∨ c = 'z'
      · rw [if_pos hz] at hg
        exact absurd hg (by simp)
      · rw [if_neg hz] at hg
        simp only [cmdOK] at hc
        rcases hc with rfl | rfl | rfl | rfl | rfl | rfl
        · simp only [pathStep, if_pos hlt, hgd, hsc, Char.reduceEq, true_or, or_true,
            false_or, or_false, reduceIte]
          split
          · rename_i x y hx hy
            have hg1 := guard_consume_num hz (numAt_ok hy) hg
            right; right
            exact ⟨_, rfl, by show s.i < s.i + 2; omega, by simp [cmdOK], hg1⟩
          · right; left; rfl
        · simp only [pathStep, if_pos hlt, hgd, hsc, Char.reduceEq, true_or, or_true,
            false_or, or_false, reduceIte]
          split
          · rename_i x y hx hy
            have hg1 := guard_consume_num hz (numAt_ok hy) hg
            right; right
            exact ⟨_, rfl, by show s.i < s.i + 2; omega, by simp [cmdOK], hg1⟩
          · right; left; rfl
        · simp only [pathStep, if_pos hlt, hgd, hsc, Char.reduceEq, true_or, or_true,
            false_or, or_false, reduceIte]
          split
          · rename_i x1 y1 x2 y2 x3 y3 hx1 hy1 hx2 hy2 hx3 hy3
            have hg1 := guard_consume_num hz (numAt_ok hy1) hg
            have hg2 := guard_consume_num hz (numAt_ok hx2) hg1
            have hg3 := guard_consume_num hz (numAt_ok hy2) hg2
            have hg4 := guard_consume_num hz (numAt_ok hx3) hg3
            have hg5 := guard_consume_num hz (numAt_ok hy3) hg4
            right; right
            refine ⟨_, rfl, by show s.i < s.i + 6; omega, by simp [cmdOK], ?_⟩
            exact hg5
          · right; left; rfl
        · simp only [pathStep, if_pos hlt, hgd, hsc, Char.reduceEq, true_or, or_true,
            false_or, or_false, reduceIte]
          split
          · rename_i x1 y1 x2 y2 x3 y3 hx1 hy1 hx2 hy2 hx3 hy3
            have hg1 := guard_consume_num hz (numAt_ok hy1) hg
            have hg2 := guard_consume_num hz (numAt_ok hx2) hg1
            have hg3 := guard_consume_num hz (numAt_ok hy2) hg2
            have hg4 := guard_consume_num hz (numAt_ok hx3) hg3
            have hg5 := guard_consume_num hz (numAt_ok hy3) hg4
            right; right
            refine ⟨_, rfl, by show s.i < s.i + 6; omega, by simp [cmdOK], ?_⟩
            exact hg5
          · right; left; rfl
        · exact absurd (Or.inl rfl) hz
        · exact absurd (Or.inr rfl) hz

theorem runPath_ne_fuelOut (tokens : List PTok)
    (hOK : ∀ (i : Nat) (c : Char), tokens[i]? = some (.cmd c) → isCmdChar c = true) :
    ∀ (n : Nat) (s : PState), cmdOK s.cmd →
      numGuardedGo s.cmd (tokens.drop s.i) = true →
      tokens.length - s.i < n → runPath tokens n s ≠ .fuelOut := by
  intro n
  induction n with
  | zero => intro s _ _ h; omega
  | succ m ih =>
    intro s hc hg hlt
    rcases pathStep_progress tokens s hOK hc hg with h | h | ⟨s2, h, hi, hc2, hg2⟩
    · simp [runPath, h]
    · simp [runPath, h]
    · have hsl : s.i < tokens.length := by
        by_contra hge
        have hfin : pathStep tokens s = .finished s := by
          simp only [pathStep, if_neg hge]
        rw [hfin] at h
        exact StepOut.noConfusion h
      simp only [runPath, h]
      exact ih s2 hc2 hg2 (by omega)

theorem tokenizePathGo_cmds (fuel : Nat) : ∀ (s : List Char) (c : Char),
    PTok.cmd c ∈ tokenizePathGo fuel s → isCmdChar c = true := by
  induction fuel with
  | zero => intro s c h; simp [tokenizePathGo] at h
  | succ m ih =>
    intro s c h
    match s with
    | [] => simp [tokenizePathGo] at h
    | a :: rest =>
      simp only [tokenizePathGo] at h
      by_cases ha : isCmdChar a
      · rw [if_pos ha] at h
        rcases List.mem_cons.mp h with h1 | h2
        · injection h1 with hca
          subst hca
          exact ha
        · exact ih rest c h2
      · rw [if_neg ha] at h
        rcases hnt : numToken (a :: rest) with _ | ⟨q, r⟩
        · rw [hnt] at h
          exact ih rest c h
        · rw [hnt] at h
          rcases List.mem_cons.mp h with h1 | h2
          · exact PTok.noConfusion h1
          · exact ih r c h2

theorem tokenizePath_cmds (d : List Char) : ∀ (i : Nat) (c : Char),
    (tokenizePath d)[i]? = some (.cmd c) → isCmdChar c = true := by
  intro i c h
  obtain ⟨hlt2, heq⟩ := List.getElem?_eq_some.mp h
  have hm : PTok.cmd c ∈ tokenizePath d := by
    rw [← heq]
    exact List.getElem_mem hlt2
  exact tokenizePathGo_cmds _ d c hm

/-- C10, corrected: the loop does NOT terminate on every input — on "0 0"
(a numeric token with no active command; see the counterexample theorem) the
iteration repeats the same state forever. It does terminate whenever the
token stream is number-guarded: every numeric token is governed by a
preceding command letter whose continuation is not `Z`/`z`. Then the fuel
`len(tokens) + 1` used by the embedding completes the run, so the parser
either returns the segment list or raises. -/
theorem C10_guarded_termination (d : List Char)
    (hg : numGuarded (tokenizePath d) = true) :
    runPath (tokenizePath d) ((tokenizePath d).length + 1) initPState ≠ .fuelOut
    ∧ parserTerminates d := by
  have h := runPath_ne_fuelOut (tokenizePath d) (tokenizePath_cmds d)
    ((tokenizePath d).length + 1) initPState True.intro hg (by omega)
  exact ⟨h, _, h⟩

theorem C10_guarded_termination_witness :
    numGuarded (tokenizePath ( "M 0 0 L 10 0 Z".toList )) = true
    ∧ parserTerminates ( "M 0 0 L 10 0 Z".toList ) :=
  ⟨rfl, (C10_guarded_termination ( "M 0 0 L 10 0 Z".toList ) rfl).2⟩

/-- C10, counterexample: on the input "0 0" — whose first token is a numeric
literal with no preceding command letter — the loop never advances: the
parser does not terminate for every fuel, refuting the universal termination
claim. -/
theorem C10_nontermination_counterexample :
    ¬ parserTerminates ( "0 0".toList ) := by
  rintro ⟨fuel, hne⟩
  exact hne (runPath_stuck _ _ (by with_unfolding_all rfl) fuel)

/-! Stipple vector cache (`stipple_vector_cache.py`). The filesystem is a
set of paths, and the two collaborators the cache calls out to — the
vectorization gateway that turns the written PBM into a persisted SVG, and
the SVG-to-painter-paths conversion — are abstracted behind an environment:
the conversion result is a function of the SVG path, so repeated
conversions of the same file agree. Gateway invocations and filesystem
operations are counted alongside each call's result.

IMPORTANT: this is a REPAIRED model. As written the source cannot complete
any cache miss: it calls `BitmapVectorizer.convert_bitmap_to_svg(bmp_path,
svg_path)` with 2 of the 3 required path arguments (`TypeError`), and calls
`BitmapVectorizer.convert_svg_to_qpainter_paths(svg_path)` although that
function lives in `svg_painter`, not on `BitmapVectorizer`
(`AttributeError`). The C3 record reports those as a code bug. The model
repairs the two calls to succeed — matching the sibling `stipple_cache.py`,
which makes both calls correctly — and the theorems below verify the
caching logic of the repaired module. -/

/-- Abstract collaborators of the cache: the painter paths obtained from an
SVG file path. -/
structure VectorizeEnv where
  parse : List Char → List (List Seg)

/-- Effect counters of one cache call: gateway invocations and filesystem
operations. -/
structure CallCount where
  gateway : Nat
  fileOps : Nat
deriving Repr, DecidableEq

/-- In-memory state of `StippleVectorCache` together with the persisted
files. -/
structure StippleVectorCache where
  svg_cache : List (List Char × List Char)
  paint_cache : List (List Char × List (List Seg))
  fs : List (List Char)

/-- Association-list lookup keyed by strings (`dict.get`). -/
def alookup {α : Type} : List (List Char × α) → List Char → Option α
  | [], _ => none
  | (k, v) :: rest, key => if k = key then some v else alookup rest key

/-- `_get_or_create_svg_for_stipple_string`: an svg-cache hit returns the
stored path with no I/O and no gateway call; otherwise the stipple text is
decoded (raising on invalid text), the compact id names the SVG path, and
when that file does not exist the directory is made, the PBM written, and
the gateway invoked to create the SVG; the path is memoized either way.
REPAIRED (see the section comment): in the source the gateway call
`BitmapVectorizer.convert_bitmap_to_svg(bmp_path, svg_path)` passes 2 of
the 3 required path arguments and raises `TypeError`, so the create branch
never completes; here it is modelled as a successful gateway invocation. -/
def _get_or_create_svg_for_stipple_string (c : StippleVectorCache) (s : List Char) :
    Except KFormatError (List Char × StippleVectorCache × CallCount) :=
  match alookup c.svg_cache s with
  | some p => .ok (p, c, ⟨0, 0⟩)
  | none =>
    match from_klayout_string s with
    | .error e => .error e
    | .ok b =>
      let svg_path := to_compact_filename b ++ ( "/stipple.svg".toList )
      if svg_path ∈ c.fs then
        .ok (svg_path, { c with svg_cache := (s, svg_path) :: c.svg_cache }, ⟨0, 1⟩)
      else
        .ok (svg_path,
          { c with svg_cache := (s, svg_path) :: c.svg_cache, fs := svg_path :: c.fs },
          ⟨1, 3⟩)

/-- `painter_paths_for_stipple`: a paint-cache hit returns immediately with
no I/O and no gateway call; otherwise the SVG is obtained (possibly created),
converted to painter paths — one filesystem read — and the result memoized.
REPAIRED (see the section comment): the source calls
`BitmapVectorizer.convert_svg_to_qpainter_paths(svg_path)`, an attribute
that does not exist (`AttributeError` — the function lives in
`svg_painter`), so in the source every paint-cache miss raises; here the
conversion is the environment's `parse` function and succeeds. -/
def painter_paths_for_stipple (env : VectorizeEnv) (c : StippleVectorCache)
    (s : List Char) :
    Except KFormatError (List (List Seg) × StippleVectorCache × CallCount) :=
  match alookup c.paint_cache s with
  | some paths => .ok (paths, c, ⟨0, 0⟩)
  | none =>
    match _get_or_create_svg_for_stipple_string c s with
    | .error e => .error e
    | .ok (p, c1, n1) =>
      let paths := env.parse p
      .ok (paths, { c1 with paint_cache := (s, paths) :: c1.paint_cache },
        ⟨n1.gateway, n1.fileOps + 1⟩)

theorem get_or_create_gateway_le (c : StippleVectorCache) (s p : List Char)
    (c1 : StippleVectorCache) (n1 : CallCount)
    (h : _get_or_create_svg_for_stipple_string c s = .ok (p, c1, n1)) :
    n1.gateway ≤ 1 := by
  simp only [_get_or_create_svg_for_stipple_string] at h
  split at h
  · cases h
    simp
  · split at h
    · exact Except.noConfusion h
    · split at h
      · cases h
        simp
      · cases h
        simp

theorem get_or_create_ok (c : StippleVectorCache) (s : List Char) (b : Bitmap)
    (hb : from_klayout_string s = .ok b) :
    ∃ p c1 n1, _get_or_create_svg_for_stipple_string c s = .ok (p, c1, n1) := by
  simp only [_get_or_create_svg_for_stipple_string]
  split
  · exact ⟨_, _, _, rfl⟩
  · split
    · rename_i e heq
      rw [hb] at heq
      exact Except.noConfusion heq
    · split
      · exact ⟨_, _, _, rfl⟩
      · exact ⟨_, _, _, rfl⟩

/-- Claim C3 (cache idempotence), proved of the REPAIRED cache model (see
the section comment: as written, the source raises `TypeError` /
`AttributeError` on every cache miss before any gateway invocation, which
the C3 record reports as a code bug): on any cache state, two successive
requests for the vector paths of a decodable pattern both succeed, invoke
the gateway at most once in total, and the second returns the first's
result with no gateway call and no filesystem operation; a paint-cache hit
performs no I/O and no gateway call and leaves the state unchanged. -/
theorem C3_cache_idempotence (env : VectorizeEnv) (c0 : StippleVectorCache)
    (s : List Char) (hok : ∃ b, from_klayout_string s = .ok b) :
    ∃ r1 c1 n1 r2 c2 n2,
      painter_paths_for_stipple env c0 s = .ok (r1, c1, n1) ∧
      painter_paths_for_stipple env c1 s = .ok (r2, c2, n2) ∧
      n1.gateway + n2.gateway ≤ 1 ∧
      r2 = r1 ∧ n2.gateway = 0 ∧ n2.fileOps = 0 ∧
      (∀ r, alookup c0.paint_cache s = some r →
        painter_paths_for_stipple env c0 s = .ok (r, c0, ⟨0, 0⟩)) := by
  obtain ⟨b, hb⟩ := hok
  cases hp : alookup c0.paint_cache s with
  | some r =>
    refine ⟨r, c0, ⟨0, 0⟩, r, c0, ⟨0, 0⟩, ?_, ?_, ?_, rfl, rfl, rfl, ?_⟩
    · simp [painter_paths_for_stipple, hp]
    · simp [painter_paths_for_stipple, hp]
    · simp
    · intro r2 hr2
      injection hr2 with h
      subst h
      simp [painter_paths_for_stipple, hp]
  | none =>
    obtain ⟨p, c1a, n1, hsvg⟩ := get_or_create_ok c0 s b hb
    have hgat := get_or_create_gateway_le c0 s p c1a n1 hsvg
    refine ⟨env.parse p,
      { c1a with paint_cache := (s, env.parse p) :: c1a.paint_cache },
      ⟨n1.gateway, n1.fileOps + 1⟩,
      env.parse p,
      { c1a with paint_cache := (s, env.parse p) :: c1a.paint_cache },
      ⟨0, 0⟩, ?_, ?_, ?_, rfl, rfl, rfl, ?_⟩
    · simp [painter_paths_for_stipple, hp, hsvg]
    · simp [painter_paths_for_stipple, alookup]
    · simpa using hgat
    · intro r2 hr2
      exact Option.noConfusion hr2

theorem C3_cache_idempotence_witness :
    ∃ r1 c1 n1 r2 c2 n2,
      painter_paths_for_stipple ⟨fun _ => []⟩ ⟨[], [], []⟩ ( "*".toList )
          = .ok (r1, c1, n1) ∧
      painter_paths_for_stipple ⟨fun _ => []⟩ c1 ( "*".toList ) = .ok (r2, c2, n2) ∧
      n1.gateway + n2.gateway ≤ 1 ∧
      r2 = r1 ∧ n2.gateway = 0 ∧ n2.fileOps = 0 ∧
      (∀ r, alookup (StippleVectorCache.mk [] [] []).paint_cache ( "*".toList )
            = some r →
        painter_paths_for_stipple ⟨fun _ => []⟩ ⟨[], [], []⟩ ( "*".toList )
          = .ok (r, ⟨[], [], []⟩, ⟨0, 0⟩)) :=
  C3_cache_idempotence ⟨fun _ => []⟩ ⟨[], [], []⟩ ( "*".toList ) ⟨_, by rfl⟩

end VFE
